import Mathlib

/-!
Shallow embedding of the irrpoly library (src/include/irrpoly): the Galois
field descriptor `gf` with its multiplicative-inverse table, field elements
`gfn` (residues mod p), dense polynomials `gfpoly` (coefficient lists in
reduced form), the polynomial arithmetic they support, the specialized
kernels `integer_power` and `x_pow_mod_sub`, the primitivity test
`is_primitive_definition`, and the degenerate (no-worker) mode of the
parallel `pipeline`.

Machine integers (`uintmax_t`) are modelled as `Nat` with explicit
`% 2 ^ 64` where wrap-around matters.  Exceptions, failed CHECK_FIELD /
assert checks and undefined behaviour are modelled with `Except Err`.
Loops are embedded as structurally recursive functions; where the C++ loop
variable is not structurally decreasing the recursion runs on an explicit
fuel argument chosen large enough, and fuel exhaustion (which models
non-termination or UB) returns `Err.nonterm`.
-/

set_option maxHeartbeats 4000000

namespace Irrpoly

/-- Failure outcomes of the embedded operations: the C++ exceptions thrown
by the library, failed `CHECK_FIELD` / `assert` checks, and undefined
behaviour (modelled via fuel exhaustion or explicit guards). -/
inductive Err where
  /-- std::logic_error: multiplicative inverse does not exist -/
  | noInverse : Err
  /-- std::invalid_argument: division by zero -/
  | divByZero : Err
  /-- std::logic_error: degree is undefined for zero polynomial -/
  | undefinedDegree : Err
  /-- std::logic_error: division is impossible (operator>>=) -/
  | notDivisible : Err
  /-- failed CHECK_FIELD or assert -/
  | checkFailed : Err
  /-- std::bad_optional_access -/
  | badOptional : Err
  /-- out-of-bounds vector access (UB) -/
  | oob : Err
  /-- non-termination or modulo-by-zero (UB), incl. fuel exhaustion -/
  | nonterm : Err
  deriving DecidableEq

/-! ## Field elements (gf.hpp, class gfn)

A `gfn` value is a residue in `[0, p)`; every mutating operation reduces
modulo the base.  We only embed the operations the claims exercise. -/

/-- gfn operator+= : `(a + b) % p`. -/
def addmod (p a b : Nat) : Nat := (a + b) % p

/-- gfn operator-= : `(p + a - b) % p`. -/
def submod (p a b : Nat) : Nat := (p + a - b) % p

/-- gfn operator*= : `(a * b) % p`. -/
def mulmod (p a b : Nat) : Nat := (a * b) % p

/-! ## The inverse table (gf.hpp, detail::inv_calc and gf::gf) -/

/-- The extended-Euclid loop of `detail::inv_calc`.  State is
`(u0, u1, u2, v0, v1, v2)`; each turn computes `q = u0 / v0`,
`w = u - q * v` componentwise and shifts `u ← v ← w`.  Returns the final
`(u0, u2)` (the gcd and the Bezout coefficient of `val`).  `v0` strictly
decreases, so fuel `v0 + 1` runs the loop to completion. -/
def inv_calc_loop : Nat → Nat → Int → Int → Nat → Int → Int → Nat × Int
  | 0, u0, _, u2, _, _, _ => (u0, u2)
  | fuel + 1, u0, u1, u2, v0, v1, v2 =>
    if v0 = 0 then (u0, u2)
    else
      inv_calc_loop fuel v0 v1 v2 (u0 % v0)
        (u1 - ((u0 / v0 : Nat) : Int) * v1) (u2 - ((u0 / v0 : Nat) : Int) * v2)

/-- detail::inv_calc — the multiplicative inverse of `val` mod `base`, or
an error when `val = 0` or `gcd(val, base) > 1`. -/
def inv_calc (base val : Nat) : Except Err Nat :=
  match val with
  | 1 => .ok 1
  | 0 => .error .noInverse
  | _ =>
    let r := inv_calc_loop (val + 1) base 1 0 val 0 1
    if 1 < r.1 then .error .noInverse
    else .ok (if r.2 < 0 then ((base : Int) + r.2).toNat else r.2.toNat)

/-- The table-filling loop of the `gf::gf` constructor: for `i = 1, …, p-1`,
if `inv[i]` is still 0 compute `w = inv_calc p i` and record the paired
entries `inv[i] = w` and `inv[w] = i`.  Fuel `p` runs `i` past `p`. -/
def make_gf_loop (p : Nat) : Nat → Nat → List Nat → Except Err (List Nat)
  | 0, _, tbl => .ok tbl
  | fuel + 1, i, tbl =>
    if i < p then
      if tbl.getD i 0 ≠ 0 then make_gf_loop p fuel (i + 1) tbl
      else
        match inv_calc p i with
        | .error e => .error e
        | .ok w => make_gf_loop p fuel (i + 1) ((tbl.set i w).set w i)
    else .ok tbl

/-- make_gf / gf::gf — builds the inverse table `inv[0..p)`.
The constructor's `assert(base > 0)` is modelled as a failure. -/
def make_gf (p : Nat) : Except Err (List Nat) :=
  if p = 0 then .error .checkFailed
  else make_gf_loop p p 1 (List.replicate p 0)

/-- gfn operator/ together with gf::mul_inv: division is multiplication by
the table inverse of the divisor; a zero divisor raises. -/
def gfn_div (p : Nat) (tbl : List Nat) (a b : Nat) : Except Err Nat :=
  if b = 0 then .error .divByZero
  else if b % p = 0 then .error .noInverse
  else .ok ((a * tbl.getD (b % p) 0) % p)

/-! ## Polynomials (gfpoly.hpp)

A polynomial is its coefficient list, index `i` holding the coefficient of
`x^i`.  The class invariant is that the list is empty (the zero
polynomial) or its last entry is nonzero. -/

/-- gfpoly::reduce — removes trailing zero coefficients. -/
def reduce : List Nat → List Nat
  | [] => []
  | x :: xs =>
    match reduce xs with
    | [] => if x = 0 then [] else [x]
    | y :: ys => x :: y :: ys

/-- The reduced-form invariant: empty, or the last (leading) coefficient is
nonzero. -/
def reducedP (l : List Nat) : Prop := l.getLast? ≠ some 0

/-- Well-formed coefficient list over GF(p): entries canonical residues and
the list in reduced form. -/
def wfP (p : Nat) (l : List Nat) : Prop := (∀ x ∈ l, x < p) ∧ reducedP l

instance (l : List Nat) : Decidable (reducedP l) := by
  unfold reducedP; infer_instance

instance (p : Nat) (l : List Nat) : Decidable (wfP p l) := by
  unfold wfP; infer_instance

/-- gfpoly ctor from an integer vector: each entry reduced mod p, then
reduce. -/
def mk_vec (p : Nat) (l : List Nat) : List Nat := reduce (l.map (· % p))

/-- gfpoly ctor from a single unsigned integer value. -/
def mk_num (p v : Nat) : List Nat := if v % p ≠ 0 then [v % p] else []

/-- gfpoly ctor from a single gfn value (kept raw, no reduction mod p). -/
def mk_gfn (v : Nat) : List Nat := if v ≠ 0 then [v] else []

/-- gfpoly::transform for polynomial operator+= / operator-= : `this` is
zero-padded up to `value.size()`, `op` is applied pointwise on that range
and entries beyond it are kept unchanged. -/
def transf (op : Nat → Nat → Nat) : List Nat → List Nat → List Nat
  | xs, [] => xs
  | [], y :: ys => op 0 y :: transf op [] ys
  | x :: xs, y :: ys => op x y :: transf op xs ys

/-- gfpoly operator+= (polynomial argument) followed by reduce. -/
def poly_add (p : Nat) (a b : List Nat) : List Nat := reduce (transf (addmod p) a b)

/-- gfpoly operator-= (polynomial argument) followed by reduce. -/
def poly_sub (p : Nat) (a b : List Nat) : List Nat := reduce (transf (submod p) a b)

/-- gfpoly operator<<= n : reduce, then insert n zeros at the beginning. -/
def poly_shl (a : List Nat) (n : Nat) : List Nat := List.replicate n 0 ++ reduce a

/-- gfpoly operator>>= n : fails when `n > degree()` (after the degree of
the zero polynomial fails) or when a dropped coefficient is nonzero. -/
def poly_shr (a : List Nat) (n : Nat) : Except Err (List Nat) :=
  if a = [] then .error .undefinedDegree
  else if a.length - 1 < n ∨ ¬ (∀ x ∈ a.take n, x = 0) then .error .notDivisible
  else .ok (a.drop n)

/-- Inner loop of gfpoly::multiply: add `a[i] * b[j]` into `prod[i + j]`
for the row `i`, iterating `j` over `b`. -/
def mul_row (p ai i : Nat) : List Nat → Nat → List Nat → List Nat
  | [], _, prod => prod
  | bj :: bs, j, prod =>
    mul_row p ai i bs (j + 1)
      (prod.set (i + j) (addmod p (prod.getD (i + j) 0) (mulmod p ai bj)))

/-- Outer loop of gfpoly::multiply over the rows of `a`. -/
def mul_loop (p : Nat) (b : List Nat) : List Nat → Nat → List Nat → List Nat
  | [], _, prod => prod
  | ai :: rest, i, prod => mul_loop p b rest (i + 1) (mul_row p ai i b 0 prod)

/-- gfpoly::multiply — zero if either factor is zero, otherwise the
convolution accumulated into a vector of size `size a + size b - 1`. -/
def poly_mul (p : Nat) (a b : List Nat) : List Nat :=
  if a = [] ∨ b = [] then []
  else reduce (mul_loop p b a 0 (List.replicate (a.length + b.length - 1) 0))

/-- poly scalar division, gfpoly operator/= over a gfn value: divide every
coefficient, then reduce. -/
def poly_div_scalar (p : Nat) (tbl : List Nat) (l : List Nat) (c : Nat) :
    Except Err (List Nat) :=
  match l.mapM (fun x => gfn_div p tbl x c) with
  | .error e => .error e
  | .ok r => .ok (reduce r)

/-- The inner loop of gfpoly::division's division_impl: for `j` from
`n + k - 1` down to `k`, subtract `q[k] * v[j - k]` from `u[j]`.  The
counter `i = j - k` runs from `n - 1` down to `0`. -/
def division_inner (p qk k : Nat) (v : List Nat) : Nat → List Nat → List Nat
  | 0, u => u
  | i + 1, u =>
    division_inner p qk k v i
      (u.set (k + i) (submod p (u.getD (k + i) 0) (mulmod p qk (v.getD i 0))))

/-- The `do { division_impl } while (k-- != 0)` loop of gfpoly::division:
processes `k, k-1, …, 0`, setting `q[k] = u[n+k] / v[n]` and updating `u`
at each step. -/
def division_loop (p : Nat) (tbl : List Nat) (v : List Nat) (n : Nat) :
    Nat → List Nat → List Nat → Except Err (List Nat × List Nat)
  | 0, q, u =>
    match gfn_div p tbl (u.getD n 0) (v.getD n 0) with
    | .error e => .error e
    | .ok qk => .ok (q.set 0 qk, division_inner p qk 0 v n u)
  | k + 1, q, u =>
    match gfn_div p tbl (u.getD (n + (k + 1)) 0) (v.getD n 0) with
    | .error e => .error e
    | .ok qk =>
      division_loop p tbl v n k (q.set (k + 1) qk)
        (division_inner p qk (k + 1) v n u)

/-- gfpoly::division — long division of `u` by `v` assuming
`size v ≤ size u`, both nonzero (the CHECK_FIELD precondition is modelled
as a failure).  Afterwards `u` is truncated to `n` entries and both parts
are reduced. -/
def division (p : Nat) (tbl : List Nat) (u v : List Nat) :
    Except Err (List Nat × List Nat) :=
  if v.length ≤ u.length ∧ v ≠ [] ∧ u ≠ [] then
    match division_loop p tbl v (v.length - 1)
        (u.length - 1 - (v.length - 1))
        (List.replicate (u.length - 1 - (v.length - 1) + 1) 0) u with
    | .error e => .error e
    | .ok r => .ok (reduce r.1, reduce (r.2.take (v.length - 1)))
  else .error .checkFailed

/-- gfpoly::quotient_remainder — checks the divisor is nonzero; when the
dividend is shorter than the divisor the quotient is 0 and the remainder
the dividend, otherwise long division. -/
def quotient_remainder (p : Nat) (tbl : List Nat) (a b : List Nat) :
    Except Err (List Nat × List Nat) :=
  if b = [] then .error .checkFailed
  else if a.length < b.length then .ok ([], a)
  else division p tbl a b

/-- Polynomial operator/ . -/
def poly_quot (p : Nat) (tbl : List Nat) (a b : List Nat) : Except Err (List Nat) :=
  (quotient_remainder p tbl a b).map (·.1)

/-- Polynomial operator% . -/
def poly_mod (p : Nat) (tbl : List Nat) (a b : List Nat) : Except Err (List Nat) :=
  (quotient_remainder p tbl a b).map (·.2)

/-! ## detail::integer_power (gfcheck.hpp)

Instantiated at `T = uintmax_t`: all multiplications wrap modulo `2 ^ 64`. -/

/-- The word size of `uintmax_t`. -/
def W : Nat := 18446744073709551616

/-- uintmax_t multiplication (wraps modulo `2 ^ 64`). -/
def wmul (a b : Nat) : Nat := a * b % W

/-- uintmax_t subtraction (wraps modulo `2 ^ 64`). -/
def wsub (a b : Nat) : Nat := (a + W - b) % W

/-- Fueled body of detail::integer_power; the exponent at least halves on
recursion, so fuel `n + 1` suffices. -/
def integer_power_loop (t : Nat) : Nat → Nat → Nat
  | 0, _ => 0
  | _ + 1, 0 => 1
  | _ + 1, 1 => t
  | _ + 1, 2 => wmul t t
  | _ + 1, 3 => wmul (wmul t t) t
  | fuel + 1, n =>
    let r := integer_power_loop t fuel (n / 2)
    let r2 := wmul r r
    if n % 2 = 1 then wmul r2 t else r2

/-- detail::integer_power on uintmax_t — right-to-left exponentiation with
wrap-around at `2 ^ 64`. -/
def integer_power (t n : Nat) : Nat := integer_power_loop t (n + 1) n

/-! ## detail::x_pow_mod_sub (gfcheck.hpp)

Computes `(x^pow - sub) % mod` without materializing `x^pow`: it keeps a
running residue `res` (initially 1), shifts it up to degree `n` (charging
the budget `pow`), reduces mod `mod`, and uses a cycle-detection shortcut:
the first time the shifted residue equals `x^n` the remaining budget is
remembered in `d`; on a second occurrence the period `d - pow` is known
and the remaining budget is reduced modulo that period. -/

/-- Loop of detail::x_pow_mod_sub.  The budget strictly decreases each
iteration, so fuel `pow + 1` suffices.  Fuel exhaustion, a zero residue
(degree of zero), a residue degree at least `n` (the unsigned `n - m`
would wrap) and a zero period (the C++ `pow %= 0`) are failures. -/
def x_pow_mod_sub_loop (p : Nat) (tbl : List Nat) (md sub : List Nat) (n : Nat)
    (xn : List Nat) : Nat → Nat → List Nat → Nat → Except Err (List Nat)
  | 0, _, _, _ => .error .nonterm
  | fuel + 1, pow, res, d =>
    if res = [] then .error .undefinedDegree
    else if pow + (res.length - 1) < n then .ok (poly_sub p (poly_shl res pow) sub)
    else if n ≤ res.length - 1 then .error .nonterm
    else
      let pow1 := pow - (n - (res.length - 1))
      let res1 := poly_shl res (n - (res.length - 1))
      if res1 = xn then
        if d = 0 then
          match poly_mod p tbl res1 md with
          | .error e => .error e
          | .ok res2 => x_pow_mod_sub_loop p tbl md sub n xn fuel pow1 res2 pow1
        else if d - pow1 = 0 then .error .nonterm
        else
          match poly_mod p tbl res1 md with
          | .error e => .error e
          | .ok res2 =>
            x_pow_mod_sub_loop p tbl md sub n xn fuel (pow1 % (d - pow1)) res2 (d - pow1)
      else
        match poly_mod p tbl res1 md with
        | .error e => .error e
        | .ok res2 => x_pow_mod_sub_loop p tbl md sub n xn fuel pow1 res2 d

/-- detail::x_pow_mod_sub. -/
def x_pow_mod_sub (p : Nat) (tbl : List Nat) (pw : Nat) (md sub : List Nat) :
    Except Err (List Nat) :=
  if md = [] then .error .undefinedDegree
  else
    x_pow_mod_sub_loop p tbl md sub (md.length - 1)
      (poly_shl (mk_num p 1) (md.length - 1)) (pw + 1) pw (mk_num p 1) 0

/-- The same loop with the cycle-detection shortcut removed: the naive
shift-and-reduce loop. -/
def x_pow_mod_sub_naive_loop (p : Nat) (tbl : List Nat) (md sub : List Nat)
    (n : Nat) : Nat → Nat → List Nat → Except Err (List Nat)
  | 0, _, _ => .error .nonterm
  | fuel + 1, pow, res =>
    if res = [] then .error .undefinedDegree
    else if pow + (res.length - 1) < n then .ok (poly_sub p (poly_shl res pow) sub)
    else if n ≤ res.length - 1 then .error .nonterm
    else
      match poly_mod p tbl (poly_shl res (n - (res.length - 1))) md with
      | .error e => .error e
      | .ok res2 =>
        x_pow_mod_sub_naive_loop p tbl md sub n fuel (pow - (n - (res.length - 1))) res2

/-- detail::x_pow_mod_sub without the cycle-detection shortcut. -/
def x_pow_mod_sub_naive (p : Nat) (tbl : List Nat) (pw : Nat) (md sub : List Nat) :
    Except Err (List Nat) :=
  if md = [] then .error .undefinedDegree
  else
    x_pow_mod_sub_naive_loop p tbl md sub (md.length - 1) (pw + 1) pw (mk_num p 1)

/-! ## is_primitive_definition (gfcheck.hpp) -/

/-- The inner strip loop of factorize: `while (n % d == 0) n /= d`.
Fuel `n + 1` suffices for `d ≥ 2`, `n ≥ 1`. -/
def factorize_strip (d : Nat) : Nat → Nat → Nat
  | 0, n => n
  | fuel + 1, n => if n % d = 0 then factorize_strip d fuel (n / d) else n

/-- The factorize lambda's trial-division loop: `d` runs upward while
`d * d ≤ n`; found divisors are recorded and stripped; a final cofactor is
recorded unless it is 1 or the original number. -/
def factorize_loop (bgn : Nat) : Nat → Nat → Nat → List Nat
  | 0, _, _ => []
  | fuel + 1, n, d =>
    if d * d ≤ n then
      if n % d ≠ 0 then factorize_loop bgn fuel n (d + 1)
      else d :: factorize_loop bgn fuel (factorize_strip d (n + 1) n) (d + 1)
    else if n ≠ 1 ∧ n ≠ bgn then [n] else []

/-- The factorize lambda in is_primitive_definition: distinct prime
divisors of `n`, excluding 1 and `n` itself. -/
def factorize (n : Nat) : List Nat := factorize_loop n (n + 2) n 2

/-- Condition-1 loop of is_primitive_definition: for `i = 1..pp` the value
`tmp = mp^i` is compared at the checkpoints `i = pp / q` (q walking the
divisor list from the back); `tmp == 1` there refutes primitivity. -/
def cond1_loop (P pp mp : Nat) (lst : List Nat) : Nat → Nat → Nat → Nat → Except Err Bool
  | 0, _, _, _ => .error .nonterm
  | fuel + 1, i, m, tmp =>
    if ¬ i ≤ pp then .ok true
    else if i ≠ pp / lst.getD m 0 then cond1_loop P pp mp lst fuel (i + 1) m (mulmod P tmp mp)
    else if tmp = 1 % P then .ok false
    else if m = 0 then .ok true
    else cond1_loop P pp mp lst fuel (i + 1) (m - 1) (mulmod P tmp mp)

/-- Condition-3 loop of is_primitive_definition: for every recorded prime
divisor `q` of `r`, `x^(r/q) mod poly` must have positive degree. -/
def cond3_loop (p : Nat) (tbl : List Nat) (poly : List Nat) (r : Nat) :
    List Nat → Except Err Bool
  | [] => .ok true
  | q :: qs =>
    match x_pow_mod_sub p tbl (r / q) poly [] with
    | .error e => .error e
    | .ok t =>
      if t = [] ∨ t.length - 1 = 0 then .ok false
      else cond3_loop p tbl poly r qs

/-- is_primitive_definition (gfcheck.hpp lines 306-367). -/
def is_primitive_definition (p : Nat) (tbl : List Nat) (val : List Nat) :
    Except Err Bool :=
  if val = [] then .ok false
  else
    let n := val.length - 1
    if n = 0 ∨ (val.getD 0 0 = 0 ∧ 1 < n) then .ok false
    else if n = 1 ∧ val.getD 0 0 = 0 then .ok true
    else
      match poly_div_scalar p tbl val (val.getD n 0) with
      | .error e => .error e
      | .ok poly =>
        if p = 2 ∧ poly = mk_vec p [1, 1] then .ok false
        else
          let mp := if n % 2 = 1 then p - poly.getD 0 0 else poly.getD 0 0
          let c1 : Except Err Bool :=
            if 2 < p then
              let pp := p - 1
              let lst := if pp = 2 then [2] else factorize pp
              if lst = [] then .error .oob
              else cond1_loop p pp mp lst (pp + 1) 1 (lst.length - 1) mp
            else .ok true
          match c1 with
          | .error e => .error e
          | .ok false => .ok false
          | .ok true =>
            let r := wsub (integer_power p n) 1 / (p - 1)
            match x_pow_mod_sub p tbl r val (mk_gfn mp) with
            | .error e => .error e
            | .ok t =>
              if ¬ t = [] then .ok false
              else cond3_loop p tbl poly r (factorize r)

/-! ## The pipeline (pipeline.hpp) -/

/-- pipeline::pipeline — the number of worker pods created for a configured
count `n`: none unless `n > 1`, else `n - 1`. -/
def pipeline_workers (n : Nat) : Nat := if 1 < n then n - 1 else 0

/-- Observable events of the degenerate (coordinator-only) pipeline loop:
drawing the `i`-th input, checking it, invoking the callback on it. -/
inductive PEvent where
  | inp : Nat → PEvent
  | chk : Nat → PEvent
  | cb : Nat → PEvent
  deriving DecidableEq

/-- The `m_pods.empty()` branch of pipeline::pipe as an event trace:
`input`, `check`, `callback` in sequence for candidates `i, i+1, …` until
the callback returns true.  `pl` returns the contents of the optional
result slot after `check`; an empty slot makes `callback`'s
`.value()` raise.  The C++ loop is `while (true)`, so the recursion runs
on fuel and fuel exhaustion models non-termination. -/
def pipe_seq {α β : Type} (ins : Nat → α) (pl : α → Option β) (bk : α → β → Bool) :
    Nat → Nat → Except Err (List PEvent)
  | 0, _ => .error .nonterm
  | fuel + 1, i =>
    match pl (ins i) with
    | none => .error .badOptional
    | some r =>
      if bk (ins i) r then .ok [.inp i, .chk i, .cb i]
      else
        match pipe_seq ins pl bk fuel (i + 1) with
        | .error e => .error e
        | .ok t => .ok (.inp i :: .chk i :: .cb i :: t)

/-! ## Mathematical semantics

`toPoly p l` interprets a coefficient list as a polynomial over `ZMod p`.
The lemmas below relate each embedded operation to its mathematical
counterpart. -/

open Polynomial in
/-- The polynomial over `ZMod p` denoted by a coefficient list. -/
noncomputable def toPoly (p : Nat) (l : List Nat) : Polynomial (ZMod p) :=
  ∑ i ∈ Finset.range l.length, Polynomial.C ((l.getD i 0 : Nat) : ZMod p) * Polynomial.X ^ i

theorem toPoly_coeff (p : Nat) (l : List Nat) (k : Nat) :
    (toPoly p l).coeff k = ((l.getD k 0 : Nat) : ZMod p) := by
  unfold toPoly
  rw [Polynomial.finset_sum_coeff]
  by_cases hk : k < l.length
  · rw [Finset.sum_eq_single k]
    · simp [Polynomial.coeff_C_mul, Polynomial.coeff_X_pow]
    · intro i _ hik
      simp [Polynomial.coeff_C_mul, Polynomial.coeff_X_pow, Ne.symm hik]
    · intro h
      exact absurd (Finset.mem_range.mpr hk) h
  · rw [List.getD_eq_default _ _ (Nat.le_of_not_lt hk)]
    push_cast
    rw [Finset.sum_eq_zero]
    intro i hi
    have : i ≠ k := by
      intro h
      exact hk (h ▸ Finset.mem_range.mp hi)
    simp [Polynomial.coeff_C_mul, Polynomial.coeff_X_pow, Ne.symm this]

theorem toPoly_eq_of_getD (p : Nat) (l1 l2 : List Nat)
    (h : ∀ i, ((l1.getD i 0 : Nat) : ZMod p) = ((l2.getD i 0 : Nat) : ZMod p)) :
    toPoly p l1 = toPoly p l2 := by
  apply Polynomial.ext
  intro k
  rw [toPoly_coeff, toPoly_coeff, h]

/-- Unfolding equation for `reduce` on a cons cell. -/
theorem reduce_cons (x : Nat) (xs : List Nat) :
    reduce (x :: xs) =
      if reduce xs = [] then (if x = 0 then [] else [x]) else x :: reduce xs := by
  cases h : reduce xs with
  | nil => simp [reduce, h]
  | cons y ys => simp [reduce, h]

theorem reduce_getD (l : List Nat) : ∀ i, (reduce l).getD i 0 = l.getD i 0 := by
  induction l with
  | nil => intro i; rfl
  | cons x xs ih =>
    intro i
    rw [reduce_cons]
    by_cases h : reduce xs = []
    · have hxs : ∀ j, xs.getD j 0 = 0 := by
        intro j
        have := ih j
        rw [h] at this
        simpa using this.symm
      by_cases hx : x = 0
      · cases i with
        | zero => simp [h, hx]
        | succ j => rw [if_pos h, if_pos hx, List.getD_cons_succ, List.getD_nil, hxs j]
      · cases i with
        | zero => simp [h, hx]
        | succ j =>
          rw [if_pos h, if_neg hx, List.getD_cons_succ, List.getD_cons_succ,
            List.getD_nil, hxs j]
    · cases i with
      | zero => simp [h]
      | succ j => rw [if_neg h, List.getD_cons_succ, List.getD_cons_succ, ih j]

theorem reduce_eq_nil_getD {l : List Nat} (h : reduce l = []) (i : Nat) :
    l.getD i 0 = 0 := by
  have := reduce_getD l i
  rw [h] at this
  simpa using this.symm

theorem reducedP_reduce (l : List Nat) : reducedP (reduce l) := by
  induction l with
  | nil => simp [reduce, reducedP]
  | cons x xs ih =>
    rw [reduce_cons]
    by_cases h : reduce xs = []
    · by_cases hx : x = 0 <;> simp [h, hx, reducedP]
    · cases hr : reduce xs with
      | nil => exact absurd hr h
      | cons y ys =>
        rw [if_neg (by simp : ¬(y :: ys = []))]
        rw [hr] at ih
        unfold reducedP at ih ⊢
        rwa [List.getLast?_cons_cons]

theorem reduce_mem {l : List Nat} {x : Nat} (h : x ∈ reduce l) : x ∈ l := by
  induction l with
  | nil => simp [reduce] at h
  | cons y ys ih =>
    rw [reduce_cons] at h
    by_cases hy : reduce ys = []
    · by_cases hy0 : y = 0 <;> simp_all
    · simp only [hy, if_false, List.mem_cons] at h
      rcases h with h | h
      · simp [h]
      · exact List.mem_cons_of_mem _ (ih h)

theorem reduce_of_reducedP {l : List Nat} (h : reducedP l) : reduce l = l := by
  induction l with
  | nil => rfl
  | cons x xs ih =>
    rw [reduce_cons]
    by_cases hxs : xs = []
    · subst hxs
      have hx : x ≠ 0 := by simpa [reducedP] using h
      simp [reduce, hx]
    · obtain ⟨y, ys, rfl⟩ := List.exists_cons_of_ne_nil hxs
      have hred : reducedP (y :: ys) := by
        unfold reducedP at h ⊢
        rwa [List.getLast?_cons_cons] at h
      have hr := ih hred
      have hne : reduce (y :: ys) ≠ [] := by rw [hr]; simp
      rw [if_neg hne, hr]

theorem reduce_length_le (l : List Nat) : (reduce l).length ≤ l.length := by
  induction l with
  | nil => simp [reduce]
  | cons x xs ih =>
    rw [reduce_cons]
    by_cases h : reduce xs = []
    · by_cases hx : x = 0 <;> simp [h, hx]
    · rw [if_neg h]
      simp only [List.length_cons]
      exact Nat.succ_le_succ ih

/-- Entries of a well-formed nonzero list: the leading coefficient is the
last entry, nonzero and below p. -/
theorem wf_leading {p : Nat} {l : List Nat} (hw : wfP p l) (hne : l ≠ []) :
    l.getD (l.length - 1) 0 ≠ 0 ∧ l.getD (l.length - 1) 0 < p := by
  have hlen : l.length - 1 < l.length := by
    cases l with
    | nil => exact absurd rfl hne
    | cons a as => simp
  have hget : l.getD (l.length - 1) 0 = l.getLast hne := by
    rw [List.getD_eq_getElem _ _ hlen, List.getLast_eq_getElem]
  constructor
  · rw [hget]
    intro h0
    exact hw.2 (by rw [List.getLast?_eq_getLast _ hne, h0])
  · rw [hget]
    exact hw.1 _ (List.getLast_mem hne)

theorem natCast_zmod_inj {p x y : Nat} (hx : x < p) (hy : y < p)
    (h : (x : ZMod p) = (y : ZMod p)) : x = y := by
  cases p with
  | zero => omega
  | succ n =>
    have hx' := ZMod.val_cast_of_lt hx
    have hy' := ZMod.val_cast_of_lt hy
    rw [← hx', ← hy', h]

theorem toPoly_reduce (p : Nat) (l : List Nat) : toPoly p (reduce l) = toPoly p l :=
  toPoly_eq_of_getD _ _ _ (fun i => by rw [reduce_getD])

theorem length_le_of_toPoly_eq {p : Nat} {l1 l2 : List Nat} (h1 : wfP p l1)
    (h : toPoly p l1 = toPoly p l2) : l1.length ≤ l2.length := by
  by_contra hlt
  push_neg at hlt
  have hne : l1 ≠ [] := by
    intro hnil
    rw [hnil] at hlt
    simp at hlt
  have hcoeff := congrArg (fun f => Polynomial.coeff f (l1.length - 1)) h
  simp only [toPoly_coeff] at hcoeff
  have hl2 : l2.getD (l1.length - 1) 0 = 0 :=
    List.getD_eq_default _ _ (by omega)
  rw [hl2] at hcoeff
  have hlead := wf_leading h1 hne
  have hp0 : 0 < p := by omega
  have := natCast_zmod_inj hlead.2 hp0 (by exact_mod_cast hcoeff)
  exact hlead.1 this

theorem toPoly_inj {p : Nat} {l1 l2 : List Nat} (h1 : wfP p l1) (h2 : wfP p l2)
    (h : toPoly p l1 = toPoly p l2) : l1 = l2 := by
  have hlen : l1.length = l2.length :=
    Nat.le_antisymm (length_le_of_toPoly_eq h1 h) (length_le_of_toPoly_eq h2 h.symm)
  apply List.ext_getElem hlen
  intro i hi1 hi2
  have hcoeff := congrArg (fun f => Polynomial.coeff f i) h
  simp only [toPoly_coeff] at hcoeff
  have g1 : l1.getD i 0 = l1[i] := List.getD_eq_getElem _ _ hi1
  have g2 : l2.getD i 0 = l2[i] := List.getD_eq_getElem _ _ hi2
  have b1 : l1[i] < p := h1.1 _ (List.getElem_mem hi1)
  have b2 : l2[i] < p := h2.1 _ (List.getElem_mem hi2)
  exact natCast_zmod_inj b1 b2 (by rw [← g1, ← g2]; exact_mod_cast hcoeff)

/-! ### Field-element operations over `ZMod p` -/

theorem cast_addmod (p a b : Nat) :
    ((addmod p a b : Nat) : ZMod p) = (a : ZMod p) + (b : ZMod p) := by
  unfold addmod
  rw [ZMod.natCast_mod]
  push_cast
  ring

theorem cast_mulmod (p a b : Nat) :
    ((mulmod p a b : Nat) : ZMod p) = (a : ZMod p) * (b : ZMod p) := by
  unfold mulmod
  rw [ZMod.natCast_mod]
  push_cast
  ring

theorem cast_submod (p a b : Nat) (hb : b ≤ p) :
    ((submod p a b : Nat) : ZMod p) = (a : ZMod p) - (b : ZMod p) := by
  unfold submod
  rw [ZMod.natCast_mod]
  have h : p + a - b + b = p + a := by omega
  have h2 : ((p + a - b : Nat) : ZMod p) + ((b : Nat) : ZMod p) = ((p : Nat) : ZMod p) + a := by
    rw [← Nat.cast_add, h]
    push_cast
    ring
  rw [ZMod.natCast_self, zero_add] at h2
  linear_combination h2

theorem addmod_lt {p : Nat} (hp : 0 < p) (a b : Nat) : addmod p a b < p :=
  Nat.mod_lt _ hp

theorem submod_lt {p : Nat} (hp : 0 < p) (a b : Nat) : submod p a b < p :=
  Nat.mod_lt _ hp

theorem mulmod_lt {p : Nat} (hp : 0 < p) (a b : Nat) : mulmod p a b < p :=
  Nat.mod_lt _ hp

/-! ### transform (polynomial addition/subtraction) -/

theorem transf_length (op : Nat → Nat → Nat) :
    ∀ (a b : List Nat), (transf op a b).length = max a.length b.length := by
  intro a b
  induction b generalizing a with
  | nil => simp [transf]
  | cons y ys ih =>
    cases a with
    | nil =>
      show (op 0 y :: transf op [] ys).length = _
      simp [ih]
    | cons x xs =>
      show (op x y :: transf op xs ys).length = _
      simp only [List.length_cons, ih]
      omega

theorem transf_getD (op : Nat → Nat → Nat) :
    ∀ (a b : List Nat) (i : Nat),
      (transf op a b).getD i 0 =
        if i < b.length then op (a.getD i 0) (b.getD i 0) else a.getD i 0 := by
  intro a b
  induction b generalizing a with
  | nil => intro i; simp [transf]
  | cons y ys ih =>
    intro i
    cases a with
    | nil =>
      show (op 0 y :: transf op [] ys).getD i 0 = _
      cases i with
      | zero => simp
      | succ j =>
        rw [List.getD_cons_succ, ih, List.getD_cons_succ]
        simp only [List.getD_nil, List.length_cons]
        by_cases h : j < ys.length
        · rw [if_pos h, if_pos (by omega)]
        · rw [if_neg h, if_neg (by omega)]
    | cons x xs =>
      show (op x y :: transf op xs ys).getD i 0 = _
      cases i with
      | zero => simp
      | succ j =>
        rw [List.getD_cons_succ, ih, List.getD_cons_succ, List.getD_cons_succ]
        simp only [List.length_cons]
        by_cases h : j < ys.length
        · rw [if_pos h, if_pos (by omega)]
        · rw [if_neg h, if_neg (by omega)]

theorem transf_nil (op : Nat → Nat → Nat) (a : List Nat) : transf op a [] = a := by
  cases a <;> rfl

theorem transf_mem_lt {p : Nat} {op : Nat → Nat → Nat}
    (hop : ∀ x y, op x y < p) :
    ∀ {a b : List Nat}, (∀ x ∈ a, x < p) → ∀ z ∈ transf op a b, z < p := by
  intro a b
  induction b generalizing a with
  | nil =>
    intro ha z hz
    rw [transf_nil] at hz
    exact ha z hz
  | cons y ys ih =>
    intro ha z hz
    cases a with
    | nil =>
      rcases List.mem_cons.mp hz with hz | hz
      · rw [hz]; exact hop 0 y
      · exact ih (by simp) z hz
    | cons x xs =>
      rcases List.mem_cons.mp hz with hz | hz
      · rw [hz]; exact hop x y
      · exact ih (fun w hw => ha w (List.mem_cons_of_mem _ hw)) z hz

theorem toPoly_poly_add (p : Nat) (a b : List Nat) :
    toPoly p (poly_add p a b) = toPoly p a + toPoly p b := by
  unfold poly_add
  rw [toPoly_reduce]
  apply Polynomial.ext
  intro k
  rw [Polynomial.coeff_add, toPoly_coeff, toPoly_coeff, toPoly_coeff, transf_getD]
  by_cases h : k < b.length
  · rw [if_pos h, cast_addmod]
  · have hb0 : b.getD k 0 = 0 := List.getD_eq_default _ _ (by omega)
    rw [if_neg h, hb0]
    simp

theorem toPoly_poly_sub (p : Nat) (a b : List Nat) (hb : ∀ x ∈ b, x < p) :
    toPoly p (poly_sub p a b) = toPoly p a - toPoly p b := by
  unfold poly_sub
  rw [toPoly_reduce]
  apply Polynomial.ext
  intro k
  rw [Polynomial.coeff_sub, toPoly_coeff, toPoly_coeff, toPoly_coeff, transf_getD]
  by_cases h : k < b.length
  · have hmem : b.getD k 0 < p := by
      rw [List.getD_eq_getElem _ _ h]
      exact hb _ (List.getElem_mem h)
    rw [if_pos h, cast_submod _ _ _ (Nat.le_of_lt hmem)]
  · have hb0 : b.getD k 0 = 0 := List.getD_eq_default _ _ (by omega)
    rw [if_neg h, hb0]
    simp

theorem wf_poly_add {p : Nat} (hp : 0 < p) (a b : List Nat)
    (ha : ∀ x ∈ a, x < p) : wfP p (poly_add p a b) := by
  constructor
  · intro z hz
    exact transf_mem_lt (fun x y => addmod_lt hp x y) ha z (reduce_mem hz)
  · exact reducedP_reduce _

theorem wf_poly_sub {p : Nat} (hp : 0 < p) (a b : List Nat)
    (ha : ∀ x ∈ a, x < p) : wfP p (poly_sub p a b) := by
  constructor
  · intro z hz
    exact transf_mem_lt (fun x y => submod_lt hp x y) ha z (reduce_mem hz)
  · exact reducedP_reduce _

/-! ### Shifts and constructors -/

theorem getD_replicate_zero (n i : Nat) : (List.replicate n (0 : Nat)).getD i 0 = 0 := by
  by_cases h : i < n
  · rw [List.getD_eq_getElem _ _ (by simpa using h)]
    simp
  · exact List.getD_eq_default _ _ (by simpa using Nat.le_of_not_lt h)

theorem poly_shl_getD (a : List Nat) (n i : Nat) :
    (poly_shl a n).getD i 0 = if i < n then 0 else (reduce a).getD (i - n) 0 := by
  unfold poly_shl
  by_cases h : i < n
  · rw [if_pos h, List.getD_append _ _ _ _ (by simpa using h)]
    exact getD_replicate_zero _ _
  · rw [if_neg h, List.getD_append_right _ _ _ _ (by simpa using Nat.le_of_not_lt h)]
    simp

theorem toPoly_poly_shl (p : Nat) (a : List Nat) (n : Nat) :
    toPoly p (poly_shl a n) = toPoly p a * Polynomial.X ^ n := by
  apply Polynomial.ext
  intro k
  rw [toPoly_coeff, Polynomial.coeff_mul_X_pow', poly_shl_getD]
  by_cases h : k < n
  · rw [if_pos h, if_neg (by omega)]
    simp
  · rw [if_neg h, if_pos (by omega), toPoly_coeff, reduce_getD]

theorem poly_shl_of_wf {p : Nat} {a : List Nat} (ha : wfP p a) (n : Nat) :
    poly_shl a n = List.replicate n 0 ++ a := by
  unfold poly_shl
  rw [reduce_of_reducedP ha.2]

theorem wf_poly_shl {p : Nat} {a : List Nat} (ha : wfP p a) (hne : a ≠ [])
    (n : Nat) : wfP p (poly_shl a n) := by
  have hp : 0 < p := by
    have := wf_leading ha hne
    omega
  rw [poly_shl_of_wf ha]
  constructor
  · intro x hx
    rcases List.mem_append.mp hx with hx | hx
    · rw [List.eq_of_mem_replicate hx]; exact hp
    · exact ha.1 x hx
  · unfold reducedP
    rw [List.getLast?_append_of_ne_nil _ hne]
    exact ha.2

theorem poly_shl_length {p : Nat} {a : List Nat} (ha : wfP p a) (n : Nat) :
    (poly_shl a n).length = n + a.length := by
  rw [poly_shl_of_wf ha]
  simp

theorem poly_shl_ne_nil {p : Nat} {a : List Nat} (ha : wfP p a) (hne : a ≠ [])
    (n : Nat) : poly_shl a n ≠ [] := by
  rw [poly_shl_of_wf ha]
  simp [hne]

/-- The left-shift / right-shift roundtrip on a nonzero reduced polynomial. -/
theorem poly_shr_poly_shl {p : Nat} {a : List Nat} (ha : wfP p a) (hne : a ≠ [])
    (n : Nat) : poly_shr (poly_shl a n) n = .ok a := by
  rw [poly_shl_of_wf ha]
  unfold poly_shr
  have hlen : (List.replicate n 0 ++ a).length = n + a.length := by simp
  have halen : 0 < a.length := List.length_pos.mpr hne
  rw [if_neg (by simp [hne]), if_neg, List.drop_append_of_le_length (by simp)]
  · simp
  · push_neg
    constructor
    · omega
    · intro x hx
      rw [List.take_append_of_le_length (by simp)] at hx
      exact List.eq_of_mem_replicate (List.take_subset _ _ hx)

theorem mk_num_one {p : Nat} (hp : 2 ≤ p) : mk_num p 1 = [1] := by
  unfold mk_num
  rw [Nat.mod_eq_of_lt (by omega)]
  simp

theorem wf_mk_vec {p : Nat} (hp : 0 < p) (l : List Nat) : wfP p (mk_vec p l) := by
  constructor
  · intro x hx
    have := reduce_mem hx
    rcases List.mem_map.mp this with ⟨y, _, rfl⟩
    exact Nat.mod_lt _ hp
  · exact reducedP_reduce _

/-! ### Multiplication -/

theorem getD_set {l : List Nat} {m : Nat} (t v : Nat) (hm : m < l.length) :
    (l.set m v).getD t 0 = if t = m then v else l.getD t 0 := by
  rw [List.getD_eq_getD_get?, List.getD_eq_getD_get?, List.get?_eq_getElem?,
    List.get?_eq_getElem?]
  by_cases ht : t = m
  · subst ht
    rw [if_pos rfl, List.getElem?_set_self hm]
    rfl
  · rw [if_neg ht, List.getElem?_set_ne (Ne.symm ht)]

theorem mul_row_length (p ai i : Nat) :
    ∀ (b : List Nat) (j : Nat) (prod : List Nat),
      (mul_row p ai i b j prod).length = prod.length := by
  intro b
  induction b with
  | nil => intro j prod; rfl
  | cons bj bs ih =>
    intro j prod
    show (mul_row p ai i bs (j + 1) _).length = _
    rw [ih]
    simp

theorem mul_row_mem {p : Nat} (hp : 0 < p) (ai i : Nat) :
    ∀ (b : List Nat) (j : Nat) (prod : List Nat),
      (∀ x ∈ prod, x < p) → ∀ x ∈ mul_row p ai i b j prod, x < p := by
  intro b
  induction b with
  | nil => intro j prod h; exact h
  | cons bj bs ih =>
    intro j prod h x hx
    refine ih (j + 1) _ ?_ x hx
    intro y hy
    rcases List.mem_or_eq_of_mem_set hy with hy | hy
    · exact h y hy
    · rw [hy]; exact addmod_lt hp _ _

theorem mul_row_getD (p ai i : Nat) :
    ∀ (b : List Nat) (j : Nat) (prod : List Nat), i + j + b.length ≤ prod.length →
      ∀ t, ((mul_row p ai i b j prod).getD t 0 : ZMod p) =
        (prod.getD t 0 : ZMod p) +
          if i + j ≤ t ∧ t < i + j + b.length then
            (ai : ZMod p) * ((b.getD (t - (i + j)) 0 : Nat) : ZMod p)
          else 0 := by
  intro b
  induction b with
  | nil =>
    intro j prod _ t
    rw [if_neg (by simp only [List.length_nil]; omega)]
    simp [mul_row]
  | cons bj bs ih =>
    intro j prod hlen t
    have hm : i + j < prod.length := by
      simp only [List.length_cons] at hlen; omega
    show ((mul_row p ai i bs (j + 1) _).getD t 0 : ZMod p) = _
    rw [ih (j + 1) _ (by simp only [List.length_set, List.length_cons] at hlen ⊢; omega) t,
      getD_set t _ hm]
    by_cases ht : t = i + j
    · rw [if_pos ht, if_neg (by omega),
        if_pos (by simp only [List.length_cons]; omega)]
      subst ht
      rw [cast_addmod, cast_mulmod]
      have h0 : i + j - (i + j) = 0 := by omega
      rw [h0, List.getD_cons_zero]
      ring
    · rw [if_neg ht]
      by_cases hc : i + (j + 1) ≤ t ∧ t < i + (j + 1) + bs.length
      · rw [if_pos hc, if_pos (by simp only [List.length_cons]; omega)]
        have h1 : t - (i + j) = (t - (i + (j + 1))) + 1 := by omega
        rw [h1, List.getD_cons_succ]
      · rw [if_neg hc, if_neg (by simp only [List.length_cons]; omega)]

theorem mul_loop_length (p : Nat) (b : List Nat) :
    ∀ (a : List Nat) (i : Nat) (prod : List Nat),
      (mul_loop p b a i prod).length = prod.length := by
  intro a
  induction a with
  | nil => intro i prod; rfl
  | cons a0 rest ih =>
    intro i prod
    show (mul_loop p b rest (i + 1) _).length = _
    rw [ih, mul_row_length]

theorem mul_loop_mem {p : Nat} (hp : 0 < p) (b : List Nat) :
    ∀ (a : List Nat) (i : Nat) (prod : List Nat),
      (∀ x ∈ prod, x < p) → ∀ x ∈ mul_loop p b a i prod, x < p := by
  intro a
  induction a with
  | nil => intro i prod h; exact h
  | cons a0 rest ih =>
    intro i prod h x hx
    exact ih (i + 1) _ (mul_row_mem hp a0 i b 0 prod h) x hx

theorem mul_loop_getD (p : Nat) (b : List Nat) :
    ∀ (a : List Nat) (i : Nat) (prod : List Nat),
      i + a.length + b.length ≤ prod.length + 1 →
      ∀ t, ((mul_loop p b a i prod).getD t 0 : ZMod p) =
        (prod.getD t 0 : ZMod p) +
          ∑ r ∈ Finset.range a.length, (a.getD r 0 : ZMod p) *
            (if i + r ≤ t ∧ t < i + r + b.length then
              ((b.getD (t - (i + r)) 0 : Nat) : ZMod p) else 0) := by
  intro a
  induction a with
  | nil =>
    intro i prod _ t
    simp [mul_loop]
  | cons a0 rest ih =>
    intro i prod hlen t
    show ((mul_loop p b rest (i + 1) _).getD t 0 : ZMod p) = _
    rw [ih (i + 1) _
        (by rw [mul_row_length]; simp only [List.length_cons] at hlen; omega) t,
      mul_row_getD p a0 i b 0 prod
        (by simp only [List.length_cons] at hlen; omega) t]
    rw [List.length_cons, Finset.sum_range_succ']
    have hsum : ∀ r ∈ Finset.range rest.length,
        ((a0 :: rest).getD (r + 1) 0 : ZMod p) *
          (if i + (r + 1) ≤ t ∧ t < i + (r + 1) + b.length then
            ((b.getD (t - (i + (r + 1))) 0 : Nat) : ZMod p) else 0) =
        (rest.getD r 0 : ZMod p) *
          (if i + 1 + r ≤ t ∧ t < i + 1 + r + b.length then
            ((b.getD (t - (i + 1 + r)) 0 : Nat) : ZMod p) else 0) := by
      intro r _
      rw [List.getD_cons_succ]
      have he1 : i + (r + 1) = i + 1 + r := by omega
      rw [he1]
    rw [Finset.sum_congr rfl hsum]
    have he0 : i + 0 = i := by omega
    simp only [List.getD_cons_zero, he0, mul_ite, mul_zero]
    ring

theorem toPoly_nil (p : Nat) : toPoly p [] = 0 := by
  unfold toPoly
  simp

theorem toPoly_poly_mul (p : Nat) (a b : List Nat) :
    toPoly p (poly_mul p a b) = toPoly p a * toPoly p b := by
  unfold poly_mul
  by_cases hab : a = [] ∨ b = []
  · rw [if_pos hab]
    rcases hab with h | h <;> subst h <;> simp [toPoly_nil]
  · rw [if_neg hab]
    push_neg at hab
    have ha1 : 1 ≤ a.length := List.length_pos.mpr hab.1
    have hb1 : 1 ≤ b.length := List.length_pos.mpr hab.2
    apply Polynomial.ext
    intro k
    rw [toPoly_reduce, toPoly_coeff, Polynomial.coeff_mul,
      Finset.Nat.sum_antidiagonal_eq_sum_range_succ_mk,
      mul_loop_getD p b a 0 (List.replicate (a.length + b.length - 1) 0)
        (by simp only [List.length_replicate]; omega) k,
      getD_replicate_zero]
    push_cast
    rw [zero_add]
    have hterm : ∀ r ∈ Finset.range a.length,
        (a.getD r 0 : ZMod p) *
          (if 0 + r ≤ k ∧ k < 0 + r + b.length then
            ((b.getD (k - (0 + r)) 0 : Nat) : ZMod p) else 0) =
        (if r ≤ k then (a.getD r 0 : ZMod p) * ((b.getD (k - r) 0 : Nat) : ZMod p)
          else 0) := by
      intro r _
      simp only [Nat.zero_add]
      by_cases h1 : r ≤ k
      · by_cases h2 : k < r + b.length
        · rw [if_pos ⟨h1, h2⟩, if_pos h1]
        · rw [if_neg (by omega), if_pos h1]
          have hz : b.getD (k - r) 0 = 0 := List.getD_eq_default _ _ (by omega)
          rw [hz]
          push_cast
          ring
      · rw [if_neg (by omega), if_neg h1, mul_zero]
    rw [Finset.sum_congr rfl hterm]
    have hRHS : ∑ r ∈ Finset.range (k + 1),
        (toPoly p a).coeff r * (toPoly p b).coeff (k - r) =
        ∑ r ∈ Finset.range (k + 1),
          (if r ≤ k then (a.getD r 0 : ZMod p) * ((b.getD (k - r) 0 : Nat) : ZMod p)
            else 0) :=
      Finset.sum_congr rfl (fun r hr => by
        rw [toPoly_coeff, toPoly_coeff,
          if_pos (Nat.lt_succ_iff.mp (Finset.mem_range.mp hr))])
    rw [hRHS]
    have hA : ∑ r ∈ Finset.range a.length,
        (if r ≤ k then (a.getD r 0 : ZMod p) * ((b.getD (k - r) 0 : Nat) : ZMod p)
          else 0) =
        ∑ r ∈ Finset.range (a.length + k + 1),
          (if r ≤ k then (a.getD r 0 : ZMod p) * ((b.getD (k - r) 0 : Nat) : ZMod p)
            else 0) := by
      apply Finset.sum_subset (Finset.range_subset.mpr (by omega))
      intro r _ hnr
      simp only [Finset.mem_range] at hnr
      by_cases h1 : r ≤ k
      · rw [if_pos h1, List.getD_eq_default _ _ (by omega)]
        push_cast
        ring
      · exact if_neg h1
    have hB : ∑ r ∈ Finset.range (k + 1),
        (if r ≤ k then (a.getD r 0 : ZMod p) * ((b.getD (k - r) 0 : Nat) : ZMod p)
          else 0) =
        ∑ r ∈ Finset.range (a.length + k + 1),
          (if r ≤ k then (a.getD r 0 : ZMod p) * ((b.getD (k - r) 0 : Nat) : ZMod p)
            else 0) := by
      apply Finset.sum_subset (Finset.range_subset.mpr (by omega))
      intro r _ hnr
      simp only [Finset.mem_range] at hnr
      exact if_neg (by omega)
    rw [hA, hB]

/-! ### Correctness of the extended Euclid loop and the inverse table -/

theorem wf_poly_mul {p : Nat} (hp : 0 < p) (a b : List Nat) :
    wfP p (poly_mul p a b) := by
  unfold poly_mul
  by_cases hab : a = [] ∨ b = []
  · rw [if_pos hab]
    exact ⟨by simp, by simp [reducedP]⟩
  · rw [if_neg hab]
    constructor
    · intro x hx
      refine mul_loop_mem hp b a 0 _ ?_ x (reduce_mem hx)
      intro y hy
      rw [List.eq_of_mem_replicate hy]
      exact hp
    · exact reducedP_reduce _

theorem abs_sub_mul_of_sign {u2 v2 q : Int} (hq : 0 ≤ q) (hs : u2 * v2 ≤ 0) :
    |u2 - q * v2| = |u2| + q * |v2| := by
  rcases le_or_lt v2 0 with hv | hv
  · rcases lt_or_eq_of_le hv with hv' | hv'
    · have hu : 0 ≤ u2 := by
        by_contra hu
        push_neg at hu
        have := mul_pos_of_neg_of_neg hu hv'
        linarith
      have hqv : q * v2 ≤ 0 := mul_nonpos_of_nonneg_of_nonpos hq (le_of_lt hv')
      rw [abs_of_nonneg (by linarith), abs_of_nonneg hu, abs_of_nonpos hv]
      ring
    · rw [hv']
      simp
  · have hu : u2 ≤ 0 := by
      by_contra hu
      push_neg at hu
      have := mul_pos hu hv
      linarith
    have hqv : 0 ≤ q * v2 := mul_nonneg hq (le_of_lt hv)
    rw [abs_of_nonpos (by linarith), abs_of_nonpos hu, abs_of_pos hv]
    ring

theorem inv_calc_loop_gcd :
    ∀ (fuel u0 : Nat) (u1 u2 : Int) (v0 : Nat) (v1 v2 : Int), v0 < fuel →
      (inv_calc_loop fuel u0 u1 u2 v0 v1 v2).1 = Nat.gcd v0 u0 := by
  intro fuel
  induction fuel with
  | zero => intro u0 u1 u2 v0 v1 v2 h; omega
  | succ fuel ih =>
    intro u0 u1 u2 v0 v1 v2 h
    show (if v0 = 0 then ((u0, u2) : Nat × Int) else _).1 = _
    by_cases hv : v0 = 0
    · rw [if_pos hv, hv, Nat.gcd_zero_left]
    · rw [if_neg hv, ih _ _ _ _ _ _ (by
        have := Nat.mod_lt u0 (Nat.pos_of_ne_zero hv)
        omega)]
      exact (Nat.gcd_rec v0 u0).symm

theorem inv_calc_loop_bezout :
    ∀ (fuel : Nat) (B A u0 : Nat) (u1 u2 : Int) (v0 : Nat) (v1 v2 : Int),
      v0 < fuel →
      (u0 : Int) = u1 * (B : Int) + u2 * (A : Int) →
      (v0 : Int) = v1 * (B : Int) + v2 * (A : Int) →
      u2 * v2 ≤ 0 →
      (u0 : Int) * |v2| + (v0 : Int) * |u2| = (B : Int) →
      1 ≤ u0 →
      |u2| ≤ (B : Int) →
      (∃ w1 : Int, ((inv_calc_loop fuel u0 u1 u2 v0 v1 v2).1 : Int)
          = w1 * (B : Int) + (inv_calc_loop fuel u0 u1 u2 v0 v1 v2).2 * (A : Int))
        ∧ |(inv_calc_loop fuel u0 u1 u2 v0 v1 v2).2| ≤ (B : Int) := by
  intro fuel
  induction fuel with
  | zero => intro B A u0 u1 u2 v0 v1 v2 h; omega
  | succ fuel ih =>
    intro B A u0 u1 u2 v0 v1 v2 h hu hv hs hid hpos hbound
    simp only [inv_calc_loop]
    by_cases hv0 : v0 = 0
    · simp only [if_pos hv0]
      exact ⟨⟨u1, hu⟩, hbound⟩
    · simp only [if_neg hv0]
      have hv0pos : 0 < v0 := Nat.pos_of_ne_zero hv0
      have hmodlt : u0 % v0 < v0 := Nat.mod_lt u0 hv0pos
      have hqnn : (0 : Int) ≤ ((u0 / v0 : Nat) : Int) := Int.ofNat_nonneg _
      have hmod : ((u0 % v0 : Nat) : Int)
          = (u0 : Int) - ((u0 / v0 : Nat) : Int) * (v0 : Int) := by
        have hc : (v0 : Int) * ((u0 / v0 : Nat) : Int) + ((u0 % v0 : Nat) : Int)
            = (u0 : Int) := by exact_mod_cast Nat.div_add_mod u0 v0
        linarith [hc]
      have habs : |u2 - ((u0 / v0 : Nat) : Int) * v2|
          = |u2| + ((u0 / v0 : Nat) : Int) * |v2| := abs_sub_mul_of_sign hqnn hs
      refine ih B A v0 v1 v2 (u0 % v0)
        (u1 - ((u0 / v0 : Nat) : Int) * v1) (u2 - ((u0 / v0 : Nat) : Int) * v2)
        (by omega) hv ?_ ?_ ?_ (by exact_mod_cast hv0pos) ?_
      · rw [hmod, hu, hv]
        ring
      · have hexp : v2 * (u2 - ((u0 / v0 : Nat) : Int) * v2)
            = u2 * v2 - ((u0 / v0 : Nat) : Int) * (v2 * v2) := by ring
        rw [hexp]
        have := mul_nonneg hqnn (mul_self_nonneg v2)
        linarith
      · rw [habs, hmod]
        linear_combination hid
      · have h1 : (1 : Int) * |v2| ≤ (u0 : Int) * |v2| :=
          mul_le_mul_of_nonneg_right (by exact_mod_cast hpos) (abs_nonneg _)
        have h2 : (0 : Int) ≤ (v0 : Int) * |u2| :=
          mul_nonneg (Int.ofNat_nonneg _) (abs_nonneg _)
        linarith

theorem inv_calc_ok (base val : Nat) (h0 : val ≠ 0) (hg : Nat.gcd val base = 1) :
    ∃ w, inv_calc base val = .ok w := by
  match val with
  | 1 => exact ⟨1, rfl⟩
  | v + 2 =>
    set r := inv_calc_loop (v + 2 + 1) base 1 0 (v + 2) 0 1 with hrdef
    have hfst : r.1 = Nat.gcd (v + 2) base := inv_calc_loop_gcd _ _ _ _ _ _ _ (by omega)
    refine ⟨if r.2 < 0 then ((base : Int) + r.2).toNat else r.2.toNat, ?_⟩
    show (if 1 < r.1 then (.error .noInverse : Except Err Nat)
        else .ok (if r.2 < 0 then ((base : Int) + r.2).toNat else r.2.toNat)) = _
    rw [if_neg (by rw [hfst, hg]; omega)]

theorem inv_calc_error (base val : Nat) (hg : 1 < Nat.gcd val base) :
    inv_calc base val = .error .noInverse := by
  match val with
  | 0 => rfl
  | 1 => rw [Nat.gcd_one_left] at hg; omega
  | v + 2 =>
    have hfst : (inv_calc_loop (v + 2 + 1) base 1 0 (v + 2) 0 1).1
        = Nat.gcd (v + 2) base := inv_calc_loop_gcd _ _ _ _ _ _ _ (by omega)
    show (if 1 < (inv_calc_loop (v + 2 + 1) base 1 0 (v + 2) 0 1).1 then
        (.error .noInverse : Except Err Nat) else .ok _) = _
    rw [if_pos (by rw [hfst]; omega)]

theorem inv_calc_val {base val : Nat} (hb : 2 ≤ base) {w : Nat}
    (hok : inv_calc base val = .ok w) : w < base ∧ (w * val) % base = 1 := by
  match val with
  | 0 => exact absurd hok (by simp [inv_calc])
  | 1 =>
    have hw : w = 1 := by
      have h : (Except.ok 1 : Except Err Nat) = .ok w := hok
      cases h
      rfl
    subst hw
    refine ⟨by omega, ?_⟩
    rw [Nat.mul_one, Nat.mod_eq_of_lt (by omega)]
  | v + 2 =>
    set val := v + 2 with hval
    set r := inv_calc_loop (val + 1) base 1 0 val 0 1 with hr
    have hfst : r.1 = Nat.gcd val base := inv_calc_loop_gcd _ _ _ _ _ _ _ (by omega)
    have hok2 : (if 1 < r.1 then (.error .noInverse : Except Err Nat)
        else .ok (if r.2 < 0 then ((base : Int) + r.2).toNat else r.2.toNat)) = .ok w := hok
    by_cases hglt : 1 < r.1
    · rw [if_pos hglt] at hok2
      cases hok2
    rw [if_neg hglt] at hok2
    have hgne : Nat.gcd val base ≠ 0 := by
      intro hz
      have := Nat.eq_zero_of_gcd_eq_zero_right hz
      omega
    have hg1 : r.1 = 1 := by omega
    have hbz := inv_calc_loop_bezout (val + 1) base val base 1 0 val 0 1
      (by omega) (by push_cast; ring) (by push_cast; ring) (by norm_num)
      (by rw [abs_one, abs_zero]; push_cast; ring) (by omega)
      (by rw [abs_zero]; positivity)
    rw [← hr] at hbz
    obtain ⟨⟨w1, hbzeq⟩, hbnd⟩ := hbz
    rw [hg1] at hbzeq
    push_cast at hbzeq
    have habs := abs_le.mp hbnd
    have hw : w = (if r.2 < 0 then ((base : Int) + r.2).toNat else r.2.toNat) := by
      have h := hok2
      cases h
      rfl
    have hwc : ((w : Int) = (base : Int) + r.2 ∧ r.2 < 0)
        ∨ ((w : Int) = r.2 ∧ 0 ≤ r.2) := by
      by_cases hneg : r.2 < 0
      · left
        refine ⟨?_, hneg⟩
        rw [hw, if_pos hneg, Int.toNat_of_nonneg (by omega)]
      · right
        refine ⟨?_, by omega⟩
        rw [hw, if_neg hneg, Int.toNat_of_nonneg (by omega)]
    have hcong : (base : Int) ∣ ((w * val : Nat) : Int) - 1 := by
      rcases hwc with ⟨hwc, _⟩ | ⟨hwc, _⟩
      · refine ⟨(val : Int) - w1, ?_⟩
        push_cast
        rw [hwc]
        linear_combination -hbzeq
      · refine ⟨-w1, ?_⟩
        push_cast
        rw [hwc]
        linear_combination -hbzeq
    have hmodeq : w * val ≡ 1 [MOD base] := by
      rw [Nat.modEq_iff_dvd]
      have h1 : ((1 : Nat) : Int) - ((w * val : Nat) : Int)
          = -(((w * val : Nat) : Int) - 1) := by push_cast; ring
      rw [h1]
      exact dvd_neg.mpr hcong
    have hmod : (w * val) % base = 1 := by
      have h := hmodeq
      unfold Nat.ModEq at h
      rw [h, Nat.mod_eq_of_lt (by omega)]
    refine ⟨?_, hmod⟩
    have hwne : w ≠ base := by
      intro hweq
      subst hweq
      rw [Nat.mul_mod, Nat.mod_self, Nat.zero_mul, Nat.zero_mod] at hmod
      omega
    rcases hwc with ⟨hwc, hneg⟩ | ⟨hwc, hnn⟩
    · omega
    · omega

theorem coprime_of_mul_mod_one {p w v : Nat} (h : (w * v) % p = 1) :
    Nat.gcd w p = 1 := by
  have hd1 : Nat.gcd w p ∣ w * v := Dvd.dvd.mul_right (Nat.gcd_dvd_left _ _) v
  have hd2 : Nat.gcd w p ∣ p * (w * v / p) :=
    Dvd.dvd.mul_right (Nat.gcd_dvd_right _ _) _
  have hdm : p * (w * v / p) + (w * v) % p = w * v := Nat.div_add_mod (w * v) p
  have hsub : Nat.gcd w p ∣ 1 := by
    have hd := Nat.dvd_sub' hd1 hd2
    rw [show w * v - p * (w * v / p) = 1 by omega] at hd
    exact hd
  exact Nat.dvd_one.mp hsub

theorem ne_zero_of_mul_mod_one {p w v : Nat} (h : (w * v) % p = 1) : w ≠ 0 := by
  intro hzero
  subst hzero
  simp at h

/-- Invariant of the inverse table during construction: correct length, and
every nonzero entry is a valid inverse of a unit. -/
def tbl_inv (p : Nat) (tbl : List Nat) : Prop :=
  tbl.length = p ∧
  ∀ j, tbl.getD j 0 ≠ 0 →
    (tbl.getD j 0 * j) % p = 1 ∧ tbl.getD j 0 < p ∧ Nat.gcd j p = 1

theorem make_gf_loop_spec (p : Nat) (hp : 2 ≤ p) :
    ∀ fuel i tbl, 1 ≤ i → p ≤ i + fuel → tbl_inv p tbl →
      (∀ j, 1 ≤ j → j < i → tbl.getD j 0 ≠ 0) →
      (∀ j, i ≤ j → j < p → Nat.gcd j p = 1) →
      ∃ out, make_gf_loop p fuel i tbl = .ok out ∧ tbl_inv p out ∧
        (∀ j, 1 ≤ j → j < p → out.getD j 0 ≠ 0) := by
  intro fuel
  induction fuel with
  | zero =>
    intro i tbl h1 hfuel hinv hfill _
    exact ⟨tbl, rfl, hinv, fun j hj1 hjp => hfill j hj1 (by omega)⟩
  | succ fuel ih =>
    intro i tbl h1 hfuel hinv hfill hcop
    show ∃ out, (if i < p then _ else _) = _ ∧ _
    by_cases hip : i < p
    · rw [if_pos hip]
      by_cases hset : tbl.getD i 0 ≠ 0
      · rw [if_pos hset]
        exact ih (i + 1) tbl (by omega) (by omega) hinv
          (fun j hj1 hji => by
            by_cases hje : j = i
            · rw [hje]; exact hset
            · exact hfill j hj1 (by omega))
          (fun j hji hjp => hcop j (by omega) hjp)
      · rw [if_neg hset]
        push_neg at hset
        have hgcd : Nat.gcd i p = 1 := hcop i (le_refl i) hip
        obtain ⟨w, hw⟩ := inv_calc_ok p i (by omega) hgcd
        rw [hw]
        obtain ⟨hwlt, hwmod⟩ := inv_calc_val hp hw
        have hwne : w ≠ 0 := ne_zero_of_mul_mod_one hwmod
        have hilen : i < tbl.length := by rw [hinv.1]; exact hip
        have hwlen : w < tbl.length := by rw [hinv.1]; exact hwlt
        have hget : ∀ j, ((tbl.set i w).set w i).getD j 0 =
            if j = w then i else if j = i then w else tbl.getD j 0 := by
          intro j
          rw [getD_set _ _ (by simpa using hwlen), getD_set _ _ hilen]
        have hmodwi : (i * w) % p = 1 := by rw [Nat.mul_comm]; exact hwmod
        have hgcdw : Nat.gcd w p = 1 := coprime_of_mul_mod_one hwmod
        have hinv2 : tbl_inv p ((tbl.set i w).set w i) := by
          refine ⟨by simpa using hinv.1, ?_⟩
          intro j hj
          rw [hget] at hj ⊢
          by_cases hjw : j = w
          · rw [if_pos hjw] at hj ⊢
            exact ⟨hjw ▸ hmodwi, by omega, hjw ▸ hgcdw⟩
          · rw [if_neg hjw] at hj ⊢
            by_cases hji : j = i
            · rw [if_pos hji] at hj ⊢
              exact ⟨hji ▸ hwmod, hwlt, hji ▸ hgcd⟩
            · rw [if_neg hji] at hj ⊢
              exact hinv.2 j hj
        refine ih (i + 1) _ (by omega) (by omega) hinv2 ?_
          (fun j hji hjp => hcop j (by omega) hjp)
        intro j hj1 hji
        rw [hget]
        by_cases hjw : j = w
        · rw [if_pos hjw]; omega
        · rw [if_neg hjw]
          by_cases hjieq : j = i
          · rw [if_pos hjieq]; exact hwne
          · rw [if_neg hjieq]
            exact hfill j hj1 (by omega)
    · rw [if_neg hip]
      exact ⟨tbl, rfl, hinv, fun j hj1 hjp => hfill j hj1 (by omega)⟩

theorem make_gf_loop_error (p : Nat) (hp : 2 ≤ p) (d : Nat) (hd2 : 2 ≤ d)
    (hdp : d < p) (hdvd : d ∣ p)
    (hmin : ∀ j, 2 ≤ j → j < d → Nat.gcd j p = 1) :
    ∀ fuel i tbl, 1 ≤ i → i ≤ d → d < i + fuel →
      (∀ j, tbl.getD j 0 ≠ 0 → Nat.gcd j p = 1) → tbl.length = p →
      make_gf_loop p fuel i tbl = .error .noInverse := by
  intro fuel
  induction fuel with
  | zero => intro i tbl h1 hid hfuel _ _; omega
  | succ fuel ih =>
    intro i tbl h1 hid hfuel hunit hlen
    have hgcdd : Nat.gcd d p = d := Nat.gcd_eq_left hdvd
    show (if i < p then _ else _) = _
    rw [if_pos (by omega)]
    by_cases hie : i = d
    · subst hie
      have hzero : ¬ tbl.getD i 0 ≠ 0 := by
        intro hne
        have := hunit i hne
        omega
      rw [if_neg hzero, inv_calc_error p i (by omega)]
    · have hilt : i < d := by omega
      by_cases hset : tbl.getD i 0 ≠ 0
      · rw [if_pos hset]
        exact ih (i + 1) tbl (by omega) (by omega) (by omega) hunit hlen
      · rw [if_neg hset]
        have hgcd : Nat.gcd i p = 1 := by
          by_cases hione : i = 1
          · rw [hione]; exact Nat.gcd_one_left p
          · exact hmin i (by omega) hilt
        obtain ⟨w, hw⟩ := inv_calc_ok p i (by omega) hgcd
        rw [hw]
        obtain ⟨hwlt, hwmod⟩ := inv_calc_val hp hw
        have hgcdw : Nat.gcd w p = 1 := coprime_of_mul_mod_one hwmod
        refine ih (i + 1) _ (by omega) (by omega) (by omega) ?_ (by simpa using hlen)
        intro j hj
        have hilen : i < tbl.length := by omega
        have hwlen : w < tbl.length := by omega
        rw [getD_set _ _ (by simpa using hwlen), getD_set _ _ hilen] at hj
        by_cases hjw : j = w
        · exact hjw ▸ hgcdw
        · rw [if_neg hjw] at hj
          by_cases hji : j = i
          · exact hji ▸ hgcd
          · rw [if_neg hji] at hj
            exact hunit j hj

theorem make_gf_ok_iff (p : Nat) (hp : 2 ≤ p) :
    (∃ tbl, make_gf p = .ok tbl) ↔ p.Prime := by
  constructor
  · rintro ⟨tbl, htbl⟩
    by_contra hnp
    set d := p.minFac with hd
    have hdprime : d.Prime := Nat.minFac_prime (by omega)
    have hddvd : d ∣ p := Nat.minFac_dvd p
    have hdlt : d < p := by
      rcases Nat.lt_or_ge d p with h | h
      · exact h
      · exfalso
        have hle : d ≤ p := Nat.le_of_dvd (by omega) hddvd
        have : d = p := by omega
        exact hnp ((Nat.prime_def_minFac.mpr ⟨hp, this⟩))
    have hmin : ∀ j, 2 ≤ j → j < d → Nat.gcd j p = 1 := by
      intro j hj2 hjd
      by_contra hg
      have hgne : Nat.gcd j p ≠ 0 := by
        intro hz
        have := Nat.eq_zero_of_gcd_eq_zero_left hz
        omega
      have hg2 : 2 ≤ Nat.gcd j p := by omega
      set q := (Nat.gcd j p).minFac with hq
      have hqprime : q.Prime := Nat.minFac_prime (by omega)
      have hqdvdg : q ∣ Nat.gcd j p := Nat.minFac_dvd _
      have hqdvdp : q ∣ p := hqdvdg.trans (Nat.gcd_dvd_right _ _)
      have hqdvdj : q ∣ j := hqdvdg.trans (Nat.gcd_dvd_left _ _)
      have hdleq : d ≤ q := Nat.minFac_le_of_dvd hqprime.two_le hqdvdp
      have hqlej : q ≤ j := Nat.le_of_dvd (by omega) hqdvdj
      omega
    have herr := make_gf_loop_error p hp d hdprime.two_le hdlt hddvd hmin
      p 1 (List.replicate p 0) (le_refl 1)
      (by have h2 := hdprime.two_le; omega)
      (by have h2 := hdlt; omega)
      (by intro j hj; rw [getD_replicate_zero] at hj; omega)
      (by simp)
    rw [make_gf, if_neg (by omega), herr] at htbl
    cases htbl
  · intro hprime
    have hcop : ∀ j, 1 ≤ j → j < p → Nat.gcd j p = 1 := by
      intro j hj1 hjp
      have : ¬ p ∣ j := by
        intro hdvd
        have := Nat.le_of_dvd (by omega) hdvd
        omega
      exact Nat.Coprime.gcd_eq_one
        ((Nat.Prime.coprime_iff_not_dvd hprime).mpr this).symm
    obtain ⟨out, hout, _, _⟩ := make_gf_loop_spec p hp p 1 (List.replicate p 0)
      (by omega) (by omega)
      ⟨by simp, by
        intro j hj
        rw [getD_replicate_zero] at hj
        omega⟩
      (by omega) (fun j hj1 hjp => hcop j hj1 hjp)
    refine ⟨out, ?_⟩
    rw [make_gf, if_neg (by omega)]
    exact hout

theorem make_gf_valid {p : Nat} {tbl : List Nat} (hp : 2 ≤ p)
    (h : make_gf p = .ok tbl) :
    ∀ v, 1 ≤ v → v < p →
      tbl.getD v 0 ≠ 0 ∧ (tbl.getD v 0 * v) % p = 1 ∧ tbl.getD v 0 < p := by
  have hprime : p.Prime := (make_gf_ok_iff p hp).mp ⟨tbl, h⟩
  have hcop : ∀ j, 1 ≤ j → j < p → Nat.gcd j p = 1 := by
    intro j hj1 hjp
    have hnd : ¬ p ∣ j := by
      intro hdvd
      have := Nat.le_of_dvd (by omega) hdvd
      omega
    exact Nat.Coprime.gcd_eq_one
      ((Nat.Prime.coprime_iff_not_dvd hprime).mpr hnd).symm
  obtain ⟨out, hout, hinv, hfill⟩ := make_gf_loop_spec p hp p 1 (List.replicate p 0)
    (by omega) (by omega)
    ⟨by simp, by
      intro j hj
      rw [getD_replicate_zero] at hj
      omega⟩
    (by omega) (fun j hj1 hjp => hcop j hj1 hjp)
  rw [make_gf, if_neg (by omega), hout] at h
  cases h
  intro v hv1 hvp
  refine ⟨hfill v hv1 hvp, (hinv.2 v (hfill v hv1 hvp)).1, (hinv.2 v (hfill v hv1 hvp)).2.1⟩

/-! ### Long division -/

theorem gfn_div_spec {p : Nat} {tbl : List Nat} (hp : 2 ≤ p)
    (hvalid : ∀ v, 1 ≤ v → v < p →
      tbl.getD v 0 ≠ 0 ∧ (tbl.getD v 0 * v) % p = 1 ∧ tbl.getD v 0 < p)
    {b : Nat} (hb0 : b ≠ 0) (hbp : b < p) (a : Nat) :
    ∃ c, gfn_div p tbl a b = .ok c ∧ c < p ∧
      (c : ZMod p) * (b : ZMod p) = (a : ZMod p) := by
  have hbmod : b % p = b := Nat.mod_eq_of_lt hbp
  refine ⟨(a * tbl.getD b 0) % p, ?_, Nat.mod_lt _ (by omega), ?_⟩
  · unfold gfn_div
    rw [if_neg hb0, hbmod, if_neg hb0]
  · obtain ⟨-, hmod, -⟩ := hvalid b (by omega) hbp
    have h1 : (((a * tbl.getD b 0) % p : Nat) : ZMod p)
        = (a : ZMod p) * ((tbl.getD b 0 : Nat) : ZMod p) := by
      rw [ZMod.natCast_mod]
      push_cast
      ring
    rw [h1]
    have h2 : ((tbl.getD b 0 : Nat) : ZMod p) * (b : ZMod p) = 1 := by
      have h3 : (((tbl.getD b 0 * b) % p : Nat) : ZMod p) = ((1 : Nat) : ZMod p) := by
        rw [hmod]
      rw [ZMod.natCast_mod] at h3
      push_cast at h3
      exact h3
    calc (a : ZMod p) * ((tbl.getD b 0 : Nat) : ZMod p) * (b : ZMod p)
        = (a : ZMod p) * (((tbl.getD b 0 : Nat) : ZMod p) * (b : ZMod p)) := by ring
      _ = (a : ZMod p) := by rw [h2]; ring

theorem take_getD (l : List Nat) (t i : Nat) :
    (l.take t).getD i 0 = if i < t then l.getD i 0 else 0 := by
  by_cases h : i < t
  · rw [if_pos h]
    by_cases hl : i < l.length
    · rw [List.getD_eq_getElem _ _ (by simp; omega), List.getD_eq_getElem _ _ hl]
      exact List.getElem_take ..
    · rw [List.getD_eq_default _ _ (by simp; omega),
        List.getD_eq_default _ _ (by omega)]
  · rw [if_neg h, List.getD_eq_default _ _ (by simp; omega)]

theorem division_inner_length (p qk k : Nat) (v : List Nat) :
    ∀ (c : Nat) (u : List Nat), (division_inner p qk k v c u).length = u.length := by
  intro c
  induction c with
  | zero => intro u; rfl
  | succ c ih =>
    intro u
    show (division_inner p qk k v c _).length = _
    rw [ih]
    simp

theorem division_inner_mem {p : Nat} (hp : 0 < p) (qk k : Nat) (v : List Nat) :
    ∀ (c : Nat) (u : List Nat), (∀ x ∈ u, x < p) →
      ∀ x ∈ division_inner p qk k v c u, x < p := by
  intro c
  induction c with
  | zero => intro u h; exact h
  | succ c ih =>
    intro u h x hx
    refine ih _ ?_ x hx
    intro y hy
    rcases List.mem_or_eq_of_mem_set hy with hy | hy
    · exact h y hy
    · rw [hy]; exact submod_lt hp _ _

theorem division_inner_getD (p qk k : Nat) (v : List Nat) :
    ∀ (c : Nat) (u : List Nat), k + c ≤ u.length →
      ∀ j, (division_inner p qk k v c u).getD j 0 =
        if k ≤ j ∧ j < k + c then
          submod p (u.getD j 0) (mulmod p qk (v.getD (j - k) 0))
        else u.getD j 0 := by
  intro c
  induction c with
  | zero =>
    intro u _ j
    rw [if_neg (by omega)]
    rfl
  | succ c ih =>
    intro u hlen j
    have hkc : k + c < u.length := by omega
    show (division_inner p qk k v c _).getD j 0 = _
    rw [ih _ (by simp; omega) j, getD_set _ _ hkc]
    by_cases hj : j = k + c
    · subst hj
      rw [if_neg (by omega), if_pos rfl, if_pos (by omega)]
      have : k + c - k = c := by omega
      rw [this]
    · rw [if_neg hj]
      by_cases hc : k ≤ j ∧ j < k + c
      · rw [if_pos hc, if_pos (by omega)]
      · rw [if_neg hc, if_neg (by omega)]

theorem division_step_poly {p : Nat} {v : List Nat} (hv : wfP p v)
    (hvne : v ≠ []) {u : List Nat} (hu : ∀ x ∈ u, x < p)
    {k qk : Nat} (hp : 0 < p) (hqk : qk < p)
    (hbound : k + (v.length - 1) + 1 ≤ u.length)
    (hq : ((qk : Nat) : ZMod p) * ((v.getD (v.length - 1) 0 : Nat) : ZMod p)
      = ((u.getD ((v.length - 1) + k) 0 : Nat) : ZMod p)) :
    toPoly p ((division_inner p qk k v (v.length - 1) u).take ((v.length - 1) + k))
      = toPoly p (u.take ((v.length - 1) + k + 1))
        - Polynomial.C ((qk : Nat) : ZMod p) * toPoly p v * Polynomial.X ^ k := by
  set n := v.length - 1 with hn
  have hvlen : v.length = n + 1 := by
    have : 1 ≤ v.length := List.length_pos.mpr hvne
    omega
  apply Polynomial.ext
  intro i
  rw [Polynomial.coeff_sub, toPoly_coeff, toPoly_coeff, take_getD, take_getD,
    Polynomial.coeff_mul_X_pow', Polynomial.coeff_C_mul, toPoly_coeff]
  rcases Nat.lt_or_ge i k with hik | hik
  · rw [if_pos (by omega), if_pos (by omega),
      division_inner_getD p qk k v n u (by omega) i, if_neg (by omega),
      if_neg (by omega)]
    ring
  · rcases Nat.lt_or_ge i (n + k) with hnk | hnk
    · rw [if_pos (by omega), if_pos (by omega), if_pos (by omega),
        division_inner_getD p qk k v n u (by omega) i, if_pos (by omega),
        cast_submod _ _ _ (Nat.le_of_lt (mulmod_lt hp _ _)), cast_mulmod]
    · rcases Nat.eq_or_lt_of_le hnk with heq | hgt
      · rw [if_neg (by omega), if_pos (by omega), if_pos (by omega), ← heq]
        have hik2 : n + k - k = n := by omega
        rw [hik2, ← hq]
        push_cast
        ring
      · rw [if_neg (by omega), if_neg (by omega), if_pos (by omega)]
        have hvz : v.getD (i - k) 0 = 0 := List.getD_eq_default _ _ (by omega)
        rw [hvz]
        push_cast
        ring

theorem division_loop_spec {p : Nat} {tbl : List Nat} (hp : 2 ≤ p)
    (hvalid : ∀ w, 1 ≤ w → w < p →
      tbl.getD w 0 ≠ 0 ∧ (tbl.getD w 0 * w) % p = 1 ∧ tbl.getD w 0 < p)
    {v : List Nat} (hv : wfP p v) (hvne : v ≠ []) :
    ∀ (k : Nat) (q u : List Nat), (v.length - 1) + k + 1 ≤ u.length → k < q.length →
      (∀ x ∈ u, x < p) → (∀ x ∈ q, x < p) →
      (∀ j, j ≤ k → q.getD j 0 = 0) →
      ∃ qr, division_loop p tbl v (v.length - 1) k q u = .ok qr ∧
        qr.1.length = q.length ∧ qr.2.length = u.length ∧
        (∀ x ∈ qr.1, x < p) ∧ (∀ x ∈ qr.2, x < p) ∧
        (∀ j, k < j → qr.1.getD j 0 = q.getD j 0) ∧
        toPoly p (qr.2.take (v.length - 1))
          + (∑ j ∈ Finset.range (k + 1),
              Polynomial.C ((qr.1.getD j 0 : Nat) : ZMod p) * toPoly p v
                * Polynomial.X ^ j)
          = toPoly p (u.take ((v.length - 1) + k + 1)) := by
  have hlead := wf_leading hv hvne
  intro k
  set n := v.length - 1 with hn
  induction k with
  | zero =>
    intro q u hbound hqlen hu hq hq0
    obtain ⟨qk, hdiv, hqklt, hqcast⟩ :=
      gfn_div_spec hp hvalid hlead.1 hlead.2 (u.getD (n + 0) 0)
    simp only [division_loop]
    rw [show u.getD n 0 = u.getD (n + 0) 0 by rfl, hdiv]
    refine ⟨(q.set 0 qk, division_inner p qk 0 v n u), rfl, by simp,
      division_inner_length p qk 0 v n u, ?_, ?_, ?_, ?_⟩
    · intro x hx
      rcases List.mem_or_eq_of_mem_set hx with hx | hx
      · exact hq x hx
      · rw [hx]; exact hqklt
    · exact division_inner_mem (by omega) qk 0 v n u hu
    · intro j hj
      rw [getD_set _ _ (by omega), if_neg (by omega)]
    · have hstep := division_step_poly hv hvne hu (by omega) hqklt
        (by omega) hqcast
      rw [Finset.sum_range_one, getD_set _ _ (by omega), if_pos rfl]
      rw [← hn] at hstep
      rw [show n + 0 = n by rfl] at hstep ⊢
      rw [hstep]
      rw [pow_zero]
      ring
  | succ k ih =>
    intro q u hbound hqlen hu hq hq0
    obtain ⟨qk, hdiv, hqklt, hqcast⟩ :=
      gfn_div_spec hp hvalid hlead.1 hlead.2 (u.getD (n + (k + 1)) 0)
    simp only [division_loop]
    rw [hdiv]
    have hq1len : (q.set (k + 1) qk).length = q.length := by simp
    have hq1mem : ∀ x ∈ q.set (k + 1) qk, x < p := by
      intro x hx
      rcases List.mem_or_eq_of_mem_set hx with hx | hx
      · exact hq x hx
      · rw [hx]; exact hqklt
    have hinlen : (division_inner p qk (k + 1) v n u).length = u.length :=
      division_inner_length p qk (k + 1) v n u
    obtain ⟨qr, hloop, hl1, hl2, hm1, hm2, hpres, hsum⟩ :=
      ih (q.set (k + 1) qk) (division_inner p qk (k + 1) v n u)
        (by omega) (by omega)
        (division_inner_mem (by omega) qk (k + 1) v n u hu) hq1mem
        (fun j hj => by
          rw [getD_set _ _ (by omega), if_neg (by omega)]
          exact hq0 j (by omega))
    refine ⟨qr, hloop, by omega, by omega, hm1, hm2, ?_, ?_⟩
    · intro j hj
      rw [hpres j (by omega), getD_set _ _ (by omega), if_neg (by omega)]
    · have hqrk : qr.1.getD (k + 1) 0 = qk := by
        rw [hpres (k + 1) (by omega), getD_set _ _ (by omega), if_pos rfl]
      have hstep := division_step_poly hv hvne hu (p := p) (k := k + 1)
        (by omega) hqklt (by omega) hqcast
      rw [← hn] at hstep
      rw [Finset.sum_range_succ, hqrk]
      have hidx : n + (k + 1) = n + k + 1 := rfl
      rw [hidx] at hstep
      rw [← add_assoc, hsum, hstep]
      ring

theorem division_spec {p : Nat} {tbl : List Nat} (hp : 2 ≤ p)
    (hvalid : ∀ w, 1 ≤ w → w < p →
      tbl.getD w 0 ≠ 0 ∧ (tbl.getD w 0 * w) % p = 1 ∧ tbl.getD w 0 < p)
    {u v : List Nat} (hu : ∀ x ∈ u, x < p) (hv : wfP p v) (hvne : v ≠ [])
    (hsz : v.length ≤ u.length) :
    ∃ qr, division p tbl u v = .ok qr ∧ wfP p qr.1 ∧ wfP p qr.2 ∧
      qr.2.length < v.length ∧
      toPoly p u = toPoly p qr.1 * toPoly p v + toPoly p qr.2 := by
  have hvpos : 1 ≤ v.length := List.length_pos.mpr hvne
  have hune : u ≠ [] := by
    intro h
    rw [h] at hsz
    simp only [List.length_nil, Nat.le_zero] at hsz
    omega
  set n := v.length - 1 with hn
  set K := u.length - 1 - n with hK
  obtain ⟨qr, hloop, hql, hul, hqm, hum, hpres, hsum⟩ :=
    division_loop_spec hp hvalid hv hvne K (List.replicate (K + 1) 0) u
      (by
        have : 1 ≤ u.length := List.length_pos.mpr hune
        omega)
      (by simp)
      hu
      (by
        intro x hx
        rw [List.eq_of_mem_replicate hx]
        omega)
      (fun j _ => getD_replicate_zero _ _)
  refine ⟨(reduce qr.1, reduce (qr.2.take n)), ?_, ?_, ?_, ?_, ?_⟩
  · unfold division
    rw [if_pos ⟨hsz, hvne, hune⟩, ← hn, ← hK, hloop]
  · exact ⟨fun x hx => hqm x (reduce_mem hx), reducedP_reduce _⟩
  · refine ⟨fun x hx => hum x (List.take_subset _ _ (reduce_mem hx)),
      reducedP_reduce _⟩
  · calc (reduce (qr.2.take n)).length ≤ (qr.2.take n).length := reduce_length_le _
      _ ≤ n := by simp
      _ < v.length := by omega
  · show toPoly p u = toPoly p (reduce qr.1) * toPoly p v + toPoly p (reduce (qr.2.take n))
    rw [toPoly_reduce, toPoly_reduce]
    have hfull : u.take (n + K + 1) = u := by
      have : n + K + 1 = u.length := by
        have : 1 ≤ u.length := List.length_pos.mpr hune
        omega
      rw [this, List.take_length]
    rw [hfull] at hsum
    have hqlen : qr.1.length = K + 1 := by
      rw [hql]
      simp
    have hqsum : toPoly p qr.1 = ∑ j ∈ Finset.range qr.1.length,
        Polynomial.C ((qr.1.getD j 0 : Nat) : ZMod p) * Polynomial.X ^ j := rfl
    have hmul : toPoly p qr.1 * toPoly p v
        = ∑ j ∈ Finset.range (K + 1),
            Polynomial.C ((qr.1.getD j 0 : Nat) : ZMod p) * toPoly p v
              * Polynomial.X ^ j := by
      rw [hqsum, hqlen, Finset.sum_mul]
      refine Finset.sum_congr rfl ?_
      intro j _
      ring
    rw [hmul]
    linear_combination -hsum

theorem quotient_remainder_spec {p : Nat} {tbl : List Nat} (hp : 2 ≤ p)
    (hvalid : ∀ w, 1 ≤ w → w < p →
      tbl.getD w 0 ≠ 0 ∧ (tbl.getD w 0 * w) % p = 1 ∧ tbl.getD w 0 < p)
    {a b : List Nat} (ha : wfP p a) (hb : wfP p b) (hbne : b ≠ []) :
    ∃ qr, quotient_remainder p tbl a b = .ok qr ∧ wfP p qr.1 ∧ wfP p qr.2 ∧
      qr.2.length < b.length ∧
      toPoly p a = toPoly p qr.1 * toPoly p b + toPoly p qr.2 := by
  unfold quotient_remainder
  rw [if_neg hbne]
  by_cases hlen : a.length < b.length
  · rw [if_pos hlen]
    refine ⟨([], a), rfl, ⟨by simp, by simp [reducedP]⟩, ha, hlen, ?_⟩
    rw [toPoly_nil]
    ring
  · rw [if_neg hlen]
    exact division_spec hp hvalid ha.1 hb hbne (by omega)

theorem poly_mod_spec {p : Nat} {tbl : List Nat} (hp : 2 ≤ p)
    (hvalid : ∀ w, 1 ≤ w → w < p →
      tbl.getD w 0 ≠ 0 ∧ (tbl.getD w 0 * w) % p = 1 ∧ tbl.getD w 0 < p)
    {a b : List Nat} (ha : wfP p a) (hb : wfP p b) (hbne : b ≠ []) :
    ∃ r, poly_mod p tbl a b = .ok r ∧ wfP p r ∧ r.length < b.length ∧
      toPoly p b ∣ toPoly p a - toPoly p r := by
  obtain ⟨qr, hqr, hwq, hwr, hlen, hpoly⟩ :=
    quotient_remainder_spec hp hvalid ha hb hbne
  refine ⟨qr.2, ?_, hwr, hlen, ⟨toPoly p qr.1, by linear_combination hpoly⟩⟩
  unfold poly_mod
  rw [hqr]
  rfl

theorem division_loop_ok {p : Nat} {tbl : List Nat} {v : List Nat} {n : Nat}
    (hvn : v.getD n 0 ≠ 0) (hvp : v.getD n 0 < p) :
    ∀ (k : Nat) (q u : List Nat), ∃ out, division_loop p tbl v n k q u = .ok out := by
  intro k
  induction k with
  | zero =>
    intro q u
    simp only [division_loop]
    rw [show gfn_div p tbl (u.getD n 0) (v.getD n 0)
        = .ok ((u.getD n 0) * tbl.getD (v.getD n 0 % p) 0 % p) from by
      unfold gfn_div
      rw [if_neg hvn, if_neg (by rw [Nat.mod_eq_of_lt hvp]; exact hvn)]]
    exact ⟨_, rfl⟩
  | succ k ih =>
    intro q u
    simp only [division_loop]
    rw [show gfn_div p tbl (u.getD (n + (k + 1)) 0) (v.getD n 0)
        = .ok ((u.getD (n + (k + 1)) 0) * tbl.getD (v.getD n 0 % p) 0 % p) from by
      unfold gfn_div
      rw [if_neg hvn, if_neg (by rw [Nat.mod_eq_of_lt hvp]; exact hvn)]]
    exact ih _ _

/-! ### Degree bounds, uniqueness of residues, coprimality with X -/

theorem toPoly_degree_lt (p : Nat) (l : List Nat) :
    (toPoly p l).degree < (l.length : WithBot Nat) := by
  rw [show ((l.length : Nat) : WithBot Nat) = ((l.length : Nat) : WithBot Nat) from rfl]
  refine (Polynomial.degree_lt_iff_coeff_zero _ _).mpr ?_
  intro m hm
  have hm' : l.length ≤ m := by exact_mod_cast hm
  rw [toPoly_coeff, List.getD_eq_default _ _ hm']
  simp

theorem toPoly_ne_zero {p : Nat} {l : List Nat} (hw : wfP p l) (hne : l ≠ []) :
    toPoly p l ≠ 0 := by
  intro h
  have hlead := wf_leading hw hne
  have hc := congrArg (fun g => Polynomial.coeff g (l.length - 1)) h
  simp only [toPoly_coeff, Polynomial.coeff_zero] at hc
  have hp0 : 0 < p := by omega
  exact hlead.1 (natCast_zmod_inj hlead.2 hp0 (by exact_mod_cast hc))

theorem toPoly_degree_eq {p : Nat} {l : List Nat} (hw : wfP p l) (hne : l ≠ []) :
    (toPoly p l).degree = ((l.length - 1 : Nat) : WithBot Nat) := by
  have hlead := wf_leading hw hne
  have hp0 : 0 < p := by omega
  apply le_antisymm
  · refine (Polynomial.degree_le_iff_coeff_zero _ _).mpr ?_
    intro m hm
    have hm' : l.length - 1 < m := by exact_mod_cast hm
    have hlen : 0 < l.length := List.length_pos.mpr hne
    rw [toPoly_coeff, List.getD_eq_default _ _ (by omega)]
    simp
  · apply Polynomial.le_degree_of_ne_zero
    rw [toPoly_coeff]
    intro hc
    exact hlead.1 (natCast_zmod_inj hlead.2 hp0 (by exact_mod_cast hc))

theorem not_dvd_toPoly {p : Nat} (hp : p.Prime) {f l : List Nat} (hf : wfP p f)
    (hl : wfP p l) (hlne : l ≠ []) (hlen : l.length < f.length) :
    ¬ toPoly p f ∣ toPoly p l := by
  haveI := Fact.mk hp
  intro hdvd
  have hfne : f ≠ [] := by
    intro h
    rw [h] at hlen
    simp at hlen
  have hdeg : (toPoly p l).degree < (toPoly p f).degree := by
    rw [toPoly_degree_eq hf hfne]
    exact lt_of_lt_of_le (toPoly_degree_lt p l) (by exact_mod_cast Nat.le_sub_one_of_lt hlen)
  exact toPoly_ne_zero hl hlne (Polynomial.eq_zero_of_dvd_of_degree_lt hdvd hdeg)

theorem toPoly_mod_unique {p : Nat} (hp : p.Prime) {f a b : List Nat} (hf : wfP p f)
    (ha : wfP p a) (hb : wfP p b) (hal : a.length < f.length)
    (hbl : b.length < f.length)
    (hdvd : toPoly p f ∣ toPoly p a - toPoly p b) : a = b := by
  haveI := Fact.mk hp
  have hfne : f ≠ [] := by
    intro h
    rw [h] at hal
    simp at hal
  have hdeg : (toPoly p a - toPoly p b).degree < (toPoly p f).degree := by
    rw [toPoly_degree_eq hf hfne]
    refine lt_of_le_of_lt (Polynomial.degree_sub_le _ _) (max_lt ?_ ?_)
    · exact lt_of_lt_of_le (toPoly_degree_lt p a)
        (by exact_mod_cast Nat.le_sub_one_of_lt hal)
    · exact lt_of_lt_of_le (toPoly_degree_lt p b)
        (by exact_mod_cast Nat.le_sub_one_of_lt hbl)
  have h0 := Polynomial.eq_zero_of_dvd_of_degree_lt hdvd hdeg
  exact toPoly_inj ha hb (by linear_combination h0)

theorem toPoly_one_list (p : Nat) : toPoly p [1] = 1 := by
  unfold toPoly
  simp

theorem toPoly_xn {p : Nat} (hp : 2 ≤ p) (n : Nat) :
    toPoly p (poly_shl (mk_num p 1) n) = Polynomial.X ^ n := by
  rw [toPoly_poly_shl, mk_num_one hp, toPoly_one_list, one_mul]

theorem coprime_toPoly_X_pow {p : Nat} (hp : p.Prime) {f : List Nat}
    (hfp : ∀ x ∈ f, x < p) (hf0 : f.getD 0 0 ≠ 0) (k : Nat) :
    IsCoprime (toPoly p f) ((Polynomial.X : Polynomial (ZMod p)) ^ k) := by
  haveI := Fact.mk hp
  refine Polynomial.irreducible_X.coprime_pow_of_not_dvd k ?_
  rw [Polynomial.X_dvd_iff, toPoly_coeff]
  intro hc
  have hfne : f ≠ [] := by
    intro h
    rw [h] at hf0
    simp at hf0
  have hlt : f.getD 0 0 < p :=by
    rw [List.getD_eq_getElem _ _ (List.length_pos.mpr hfne)]
    exact hfp _ (List.getElem_mem _)
  exact hf0 (natCast_zmod_inj hlt (by omega) (by exact_mod_cast hc))

theorem dvd_cancel_X_pow {p : Nat} (hp : p.Prime) {f : List Nat}
    (hfp : ∀ x ∈ f, x < p) (hf0 : f.getD 0 0 ≠ 0) (k : Nat)
    {g : Polynomial (ZMod p)}
    (h : toPoly p f ∣ g * (Polynomial.X : Polynomial (ZMod p)) ^ k) :
    toPoly p f ∣ g :=
  (coprime_toPoly_X_pow hp hfp hf0 k).dvd_of_dvd_mul_right h

theorem period_dvd {p : Nat} (hp : p.Prime) {f : List Nat}
    (hfp : ∀ x ∈ f, x < p) (hf0 : f.getD 0 0 ≠ 0) {e a b : Nat} (hba : b ≤ a)
    (hd1 : toPoly p f ∣ (Polynomial.X : Polynomial (ZMod p)) ^ e - Polynomial.X ^ a)
    (hd2 : toPoly p f ∣ (Polynomial.X : Polynomial (ZMod p)) ^ e - Polynomial.X ^ b) :
    toPoly p f ∣ (Polynomial.X : Polynomial (ZMod p)) ^ (a - b) - 1 := by
  apply dvd_cancel_X_pow hp hfp hf0 b
  have hsplit : ((Polynomial.X : Polynomial (ZMod p)) ^ (a - b) - 1) *
      Polynomial.X ^ b = ((Polynomial.X : Polynomial (ZMod p)) ^ e -
        Polynomial.X ^ b) - (Polynomial.X ^ e - Polynomial.X ^ a) := by
    rw [sub_mul, one_mul, ← pow_add, Nat.sub_add_cancel hba]
    ring
  rw [hsplit]
  exact dvd_sub hd2 hd1

theorem dvd_X_pow_mod {p : Nat} {f : List Nat} {per : Nat}
    (hper : toPoly p f ∣ (Polynomial.X : Polynomial (ZMod p)) ^ per - 1)
    (c : Nat) :
    toPoly p f ∣ (Polynomial.X : Polynomial (ZMod p)) ^ c -
      Polynomial.X ^ (c % per) := by
  have h1 : ((Polynomial.X : Polynomial (ZMod p)) ^ per - 1) ∣
      ((Polynomial.X : Polynomial (ZMod p)) ^ per) ^ (c / per) - 1 := by
    have := sub_dvd_pow_sub_pow ((Polynomial.X : Polynomial (ZMod p)) ^ per) 1 (c / per)
    simpa using this
  have h2 : toPoly p f ∣ ((Polynomial.X : Polynomial (ZMod p)) ^ per) ^ (c / per) - 1 :=
    dvd_trans hper h1
  have h3 : (Polynomial.X : Polynomial (ZMod p)) ^ c - Polynomial.X ^ (c % per) =
      (((Polynomial.X : Polynomial (ZMod p)) ^ per) ^ (c / per) - 1) *
        Polynomial.X ^ (c % per) := by
    rw [sub_mul, one_mul, ← pow_mul, ← pow_add, Nat.div_add_mod]
  rw [h3]
  exact Dvd.dvd.mul_right h2 _

theorem poly_sub_length_le (p : Nat) (a b : List Nat) :
    (poly_sub p a b).length ≤ max a.length b.length := by
  unfold poly_sub
  exact le_trans (reduce_length_le _) (le_of_eq (transf_length _ _ _))

/-! ### The first-event cost relation for x_pow_mod_sub

`EvD p tbl f n xn res c` says: running the shift-and-reduce dynamics from
residue `res`, the shifted residue first equals `x^n` after exactly `c`
budget has been consumed (counting the shift of the event iteration
itself).  The relation is deterministic, which is what makes the C++
cycle shortcut sound: the budget consumed between consecutive returns to
`x^n` depends only on the (always identical) post-event residue. -/

inductive EvD (p : Nat) (tbl f : List Nat) (n : Nat) (xn : List Nat) :
    List Nat → Nat → Prop
  | hit (res : List Nat) (h1 : res ≠ []) (h2 : res.length - 1 < n)
      (h3 : poly_shl res (n - (res.length - 1)) = xn) :
      EvD p tbl f n xn res (n - (res.length - 1))
  | step (res res2 : List Nat) (c : Nat) (h1 : res ≠ []) (h2 : res.length - 1 < n)
      (h3 : poly_shl res (n - (res.length - 1)) ≠ xn)
      (h4 : poly_mod p tbl (poly_shl res (n - (res.length - 1))) f = .ok res2)
      (h5 : EvD p tbl f n xn res2 c) :
      EvD p tbl f n xn res (n - (res.length - 1) + c)

theorem EvD_det {p : Nat} {tbl f : List Nat} {n : Nat} {xn : List Nat} :
    ∀ {res c}, EvD p tbl f n xn res c → ∀ {c'}, EvD p tbl f n xn res c' → c = c' := by
  intro res c h
  induction h with
  | hit res h1 h2 h3 =>
    intro c' h'
    cases h' with
    | hit => rfl
    | step _ _ _ _ _ g3 => exact absurd h3 g3
  | step res res2 c h1 h2 h3 h4 h5 ih =>
    intro c' h'
    cases h' with
    | hit _ _ _ g3 => exact absurd g3 h3
    | step _ res2' c'' _ _ _ g4 g5 =>
      rw [h4] at g4
      cases g4
      rw [ih g5]

/-- One shift-and-reduce iteration: the shifted residue reduces mod f to a
well-formed nonzero residue of degree below deg f, congruent to the
shifted residue. -/
theorem xpms_step {p : Nat} {tbl f : List Nat} (hp : p.Prime)
    (htbl : make_gf p = .ok tbl) (hf : wfP p f) (hfl : 2 ≤ f.length)
    (hf0 : f.getD 0 0 ≠ 0) {res : List Nat} (hres : wfP p res)
    (hrne : res ≠ []) (hrlen : res.length ≤ f.length - 1) :
    ∃ res2, poly_mod p tbl (poly_shl res (f.length - 1 - (res.length - 1))) f
        = .ok res2 ∧
      wfP p res2 ∧ res2 ≠ [] ∧ res2.length ≤ f.length - 1 ∧
      toPoly p f ∣ toPoly p res *
        Polynomial.X ^ (f.length - 1 - (res.length - 1)) - toPoly p res2 := by
  have hp2 : 2 ≤ p := hp.two_le
  have hvalid := make_gf_valid hp2 htbl
  have hfne : f ≠ [] := by
    intro h
    rw [h] at hfl
    simp at hfl
  have hres1 : wfP p (poly_shl res (f.length - 1 - (res.length - 1))) :=
    wf_poly_shl hres hrne _
  obtain ⟨r2, h2, hw2, hl2, hdvd⟩ := poly_mod_spec hp2 hvalid hres1 hf hfne
  rw [toPoly_poly_shl] at hdvd
  have hne2 : r2 ≠ [] := by
    intro hnil
    subst hnil
    rw [toPoly_nil, sub_zero] at hdvd
    exact not_dvd_toPoly hp hf hres hrne (by omega)
      (dvd_cancel_X_pow hp hf.1 hf0 _ hdvd)
  exact ⟨r2, h2, hw2, hne2, by omega, hdvd⟩

theorem x_pow_mod_sub_naive_loop_spec {p : Nat} {tbl f sub : List Nat}
    (hp : p.Prime) (htbl : make_gf p = .ok tbl)
    (hf : wfP p f) (hfl : 2 ≤ f.length) (hf0 : f.getD 0 0 ≠ 0)
    (hsubp : ∀ x ∈ sub, x < p) (hsl : sub.length < f.length) :
    ∀ fuel pow res, pow < fuel → wfP p res → res ≠ [] →
      res.length ≤ f.length - 1 →
      ∃ out, x_pow_mod_sub_naive_loop p tbl f sub (f.length - 1) fuel pow res
          = .ok out ∧
        wfP p out ∧ out.length ≤ f.length - 1 ∧
        toPoly p f ∣ toPoly p res * Polynomial.X ^ pow -
          (toPoly p out + toPoly p sub) := by
  intro fuel
  induction fuel with
  | zero => intro pow res hlt _ _ _; omega
  | succ fuel ih =>
    intro pow res hlt hw hne hlen
    have hrpos : 1 ≤ res.length := List.length_pos.mpr hne
    simp only [x_pow_mod_sub_naive_loop]
    rw [if_neg hne]
    by_cases hexit : pow + (res.length - 1) < f.length - 1
    · rw [if_pos hexit]
      refine ⟨_, rfl, ?_, ?_, ?_⟩
      · exact wf_poly_sub (by have := hp.two_le; omega) _ _ (wf_poly_shl hw hne pow).1
      · refine le_trans (poly_sub_length_le _ _ _) (max_le ?_ ?_)
        · rw [poly_shl_length hw]
          omega
        · omega
      · rw [toPoly_poly_sub _ _ _ hsubp, toPoly_poly_shl]
        simp
    · rw [if_neg hexit, if_neg (by omega)]
      obtain ⟨res2, hmod, hw2, hne2, hlen2, hdvd⟩ :=
        xpms_step hp htbl hf hfl hf0 hw hne hlen
      rw [hmod]
      have htle : f.length - 1 - (res.length - 1) ≤ pow := by omega
      obtain ⟨out, hout, hwout, hlo, hdo⟩ :=
        ih (pow - (f.length - 1 - (res.length - 1))) res2 (by omega) hw2 hne2 hlen2
      refine ⟨out, hout, hwout, hlo, ?_⟩
      have hpow : f.length - 1 - (res.length - 1) +
          (pow - (f.length - 1 - (res.length - 1))) = pow := by omega
      have hsplit : toPoly p res * Polynomial.X ^ pow -
            (toPoly p out + toPoly p sub)
          = (toPoly p res * Polynomial.X ^ (f.length - 1 - (res.length - 1)) -
              toPoly p res2) *
              Polynomial.X ^ (pow - (f.length - 1 - (res.length - 1)))
            + (toPoly p res2 *
                Polynomial.X ^ (pow - (f.length - 1 - (res.length - 1))) -
              (toPoly p out + toPoly p sub)) := by
        rw [show toPoly p res * Polynomial.X ^ pow
            = toPoly p res * Polynomial.X ^ (f.length - 1 - (res.length - 1)) *
              Polynomial.X ^ (pow - (f.length - 1 - (res.length - 1))) from by
          rw [mul_assoc, ← pow_add, hpow]]
        ring
      rw [hsplit]
      exact dvd_add (Dvd.dvd.mul_right hdvd _) hdo

/-- Master invariant lemma for the x_pow_mod_sub loop with the cycle
shortcut.  The residue invariant says `res * X^pow ≡ X^pow0 (mod f)`.
The disjunct tracks the shortcut bookkeeping: either no event has been
recorded (`d = 0`); or one has (at remaining budget `d`, so
`X^(n+d) ≡ X^pow0`) and the first-event cost from the canonical
post-event residue `r0` tracks the current state; or the budget is too
small for any further event. -/
theorem x_pow_mod_sub_loop_spec {p : Nat} {tbl f sub : List Nat}
    (hp : p.Prime) (htbl : make_gf p = .ok tbl)
    (hf : wfP p f) (hfl : 2 ≤ f.length) (hf0 : f.getD 0 0 ≠ 0)
    (hsubp : ∀ x ∈ sub, x < p) (hsl : sub.length < f.length)
    {n : Nat} (hn : n = f.length - 1)
    {xn : List Nat} (hxn : xn = poly_shl (mk_num p 1) n)
    {r0 : List Nat} (hr0 : poly_mod p tbl xn f = .ok r0)
    (pow0 : Nat) :
    ∀ fuel pow res d, pow < fuel → wfP p res → res ≠ [] → res.length ≤ n →
      toPoly p f ∣ (Polynomial.X : Polynomial (ZMod p)) ^ pow0 -
        toPoly p res * Polynomial.X ^ pow →
      (d = 0 ∨
        (pow ≤ d ∧
          (toPoly p f ∣ (Polynomial.X : Polynomial (ZMod p)) ^ pow0 -
            Polynomial.X ^ (n + d)) ∧
          (∀ c, EvD p tbl f n xn res c → c ≤ pow →
            EvD p tbl f n xn r0 (d - (pow - c)))) ∨
        (∀ c, EvD p tbl f n xn res c → pow < c)) →
      ∃ out, x_pow_mod_sub_loop p tbl f sub n xn fuel pow res d = .ok out ∧
        wfP p out ∧ out.length ≤ n ∧
        toPoly p f ∣ (Polynomial.X : Polynomial (ZMod p)) ^ pow0 -
          (toPoly p out + toPoly p sub) := by
  have hp2 : 2 ≤ p := hp.two_le
  subst hn
  have htoxn : toPoly p xn = (Polynomial.X : Polynomial (ZMod p)) ^ (f.length - 1) := by
    rw [hxn]
    exact toPoly_xn hp2 _
  intro fuel
  induction fuel with
  | zero => intro pow res d hlt _ _ _ _ _; omega
  | succ fuel ih =>
    intro pow res d hlt hw hne hlen hI hD
    have hrpos : 1 ≤ res.length := List.length_pos.mpr hne
    simp only [x_pow_mod_sub_loop]
    rw [if_neg hne]
    by_cases hexit : pow + (res.length - 1) < f.length - 1
    · rw [if_pos hexit]
      refine ⟨_, rfl, ?_, ?_, ?_⟩
      · exact wf_poly_sub (by omega) _ _ (wf_poly_shl hw hne pow).1
      · refine le_trans (poly_sub_length_le _ _ _) (max_le ?_ ?_)
        · rw [poly_shl_length hw]
          omega
        · omega
      · rw [toPoly_poly_sub _ _ _ hsubp, toPoly_poly_shl]
        have heq : (Polynomial.X : Polynomial (ZMod p)) ^ pow0 -
            (toPoly p res * Polynomial.X ^ pow - toPoly p sub + toPoly p sub)
            = (Polynomial.X : Polynomial (ZMod p)) ^ pow0 -
              toPoly p res * Polynomial.X ^ pow := by ring
        rw [heq]
        exact hI
    · rw [if_neg hexit, if_neg (by omega)]
      obtain ⟨res2, hmod, hw2, hne2, hlen2, hdvd2⟩ :=
        xpms_step hp htbl hf hfl hf0 hw hne hlen
      have htle : f.length - 1 - (res.length - 1) ≤ pow := by omega
      have htpos : 1 ≤ f.length - 1 - (res.length - 1) := by omega
      have hpow : f.length - 1 - (res.length - 1) +
          (pow - (f.length - 1 - (res.length - 1))) = pow := by omega
      have hmulpow : toPoly p res *
            Polynomial.X ^ (f.length - 1 - (res.length - 1)) *
            Polynomial.X ^ (pow - (f.length - 1 - (res.length - 1)))
          = toPoly p res * Polynomial.X ^ pow := by
        rw [mul_assoc, ← pow_add, hpow]
      have hI2 : toPoly p f ∣ (Polynomial.X : Polynomial (ZMod p)) ^ pow0 -
          toPoly p res2 *
            Polynomial.X ^ (pow - (f.length - 1 - (res.length - 1))) := by
        have hsplit : (Polynomial.X : Polynomial (ZMod p)) ^ pow0 -
            toPoly p res2 *
              Polynomial.X ^ (pow - (f.length - 1 - (res.length - 1)))
            = ((Polynomial.X : Polynomial (ZMod p)) ^ pow0 -
                toPoly p res * Polynomial.X ^ pow)
              + (toPoly p res *
                  Polynomial.X ^ (f.length - 1 - (res.length - 1)) -
                  toPoly p res2) *
                Polynomial.X ^ (pow - (f.length - 1 - (res.length - 1))) := by
          rw [← hmulpow]
          ring
        rw [hsplit]
        exact dvd_add hI (Dvd.dvd.mul_right hdvd2 _)
      by_cases hev : poly_shl res (f.length - 1 - (res.length - 1)) = xn
      · rw [if_pos hev]
        have hres1 : toPoly p res *
            Polynomial.X ^ (f.length - 1 - (res.length - 1))
            = (Polynomial.X : Polynomial (ZMod p)) ^ (f.length - 1) := by
          rw [← toPoly_poly_shl, hev, htoxn]
        have hIev : toPoly p f ∣ (Polynomial.X : Polynomial (ZMod p)) ^ pow0 -
            Polynomial.X ^ ((f.length - 1) +
              (pow - (f.length - 1 - (res.length - 1)))) := by
          rw [pow_add, ← hres1, hmulpow]
          exact hI
        have hres2r0 : res2 = r0 := by
          have hmod' := hmod
          rw [hev] at hmod'
          rw [hmod'] at hr0
          exact Except.ok.inj hr0
        have hhit : EvD p tbl f (f.length - 1) xn res
            (f.length - 1 - (res.length - 1)) :=
          EvD.hit res hne (by omega) hev
        by_cases hd0 : d = 0
        · rw [if_pos hd0, hmod]
          refine ih (pow - (f.length - 1 - (res.length - 1))) res2
            (pow - (f.length - 1 - (res.length - 1))) (by omega) hw2 hne2 hlen2
            hI2 ?_
          right
          left
          refine ⟨le_refl _, hIev, ?_⟩
          intro c hc hcle
          have hidx : pow - (f.length - 1 - (res.length - 1)) -
              (pow - (f.length - 1 - (res.length - 1)) - c) = c := by omega
          rw [hidx, ← hres2r0]
          exact hc
        · rw [if_neg hd0]
          rcases hD with hD | hD | hD
          · exact absurd hD hd0
          · obtain ⟨hpd, hcong, htrack⟩ := hD
            have hp1d : pow - (f.length - 1 - (res.length - 1)) < d := by omega
            rw [if_neg (by omega), hmod]
            have hEr0 : EvD p tbl f (f.length - 1) xn r0
                (d - (pow - (f.length - 1 - (res.length - 1)))) :=
              htrack _ hhit htle
            have hper : toPoly p f ∣ (Polynomial.X : Polynomial (ZMod p)) ^
                (d - (pow - (f.length - 1 - (res.length - 1)))) - 1 := by
              have hpd' := period_dvd hp hf.1 hf0
                (show (f.length - 1) +
                    (pow - (f.length - 1 - (res.length - 1))) ≤
                  (f.length - 1) + d from by omega) hcong hIev
              have hidx : (f.length - 1) + d -
                  ((f.length - 1) + (pow - (f.length - 1 - (res.length - 1))))
                  = d - (pow - (f.length - 1 - (res.length - 1))) := by omega
              rw [hidx] at hpd'
              exact hpd'
            have hIj : toPoly p f ∣ (Polynomial.X : Polynomial (ZMod p)) ^ pow0 -
                toPoly p res2 * Polynomial.X ^
                  ((pow - (f.length - 1 - (res.length - 1))) %
                    (d - (pow - (f.length - 1 - (res.length - 1))))) := by
              have hsplitj : (Polynomial.X : Polynomial (ZMod p)) ^ pow0 -
                  toPoly p res2 * Polynomial.X ^
                    ((pow - (f.length - 1 - (res.length - 1))) %
                      (d - (pow - (f.length - 1 - (res.length - 1)))))
                  = ((Polynomial.X : Polynomial (ZMod p)) ^ pow0 -
                      Polynomial.X ^ ((f.length - 1) +
                        (pow - (f.length - 1 - (res.length - 1)))))
                    + Polynomial.X ^ (f.length - 1) *
                      ((Polynomial.X : Polynomial (ZMod p)) ^
                          (pow - (f.length - 1 - (res.length - 1))) -
                        Polynomial.X ^
                          ((pow - (f.length - 1 - (res.length - 1))) %
                            (d - (pow - (f.length - 1 - (res.length - 1))))))
                    + ((Polynomial.X : Polynomial (ZMod p)) ^ (f.length - 1) -
                        toPoly p res2) * Polynomial.X ^
                        ((pow - (f.length - 1 - (res.length - 1))) %
                          (d - (pow - (f.length - 1 - (res.length - 1))))) := by
                rw [pow_add]
                ring
              rw [hsplitj]
              refine dvd_add (dvd_add hIev ?_) ?_
              · exact Dvd.dvd.mul_left (dvd_X_pow_mod hper _) _
              · refine Dvd.dvd.mul_right ?_ _
                rw [← hres1]
                exact hdvd2
            refine ih ((pow - (f.length - 1 - (res.length - 1))) %
                (d - (pow - (f.length - 1 - (res.length - 1))))) res2
              (d - (pow - (f.length - 1 - (res.length - 1))))
              (by
                have := Nat.mod_le (pow - (f.length - 1 - (res.length - 1)))
                  (d - (pow - (f.length - 1 - (res.length - 1))))
                omega) hw2 hne2 hlen2 hIj ?_
            right
            right
            intro c hc
            rw [hres2r0] at hc
            have hceq := EvD_det hc hEr0
            have hmlt : (pow - (f.length - 1 - (res.length - 1))) %
                (d - (pow - (f.length - 1 - (res.length - 1)))) <
                d - (pow - (f.length - 1 - (res.length - 1))) :=
              Nat.mod_lt _ (by omega)
            omega
          · exact absurd (hD _ hhit) (by omega)
      · rw [if_neg hev, hmod]
        refine ih (pow - (f.length - 1 - (res.length - 1))) res2 d (by omega)
          hw2 hne2 hlen2 hI2 ?_
        rcases hD with hD | hD | hD
        · left
          exact hD
        · right
          left
          obtain ⟨hpd, hcong, htrack⟩ := hD
          refine ⟨by omega, hcong, ?_⟩
          intro c hc hcle
          have hstep : EvD p tbl f (f.length - 1) xn res
              ((f.length - 1 - (res.length - 1)) + c) :=
            EvD.step res res2 c hne (by omega) hev hmod hc
          have htr := htrack _ hstep (by omega)
          have hidx : pow - ((f.length - 1 - (res.length - 1)) + c) =
              pow - (f.length - 1 - (res.length - 1)) - c := by omega
          rw [hidx] at htr
          exact htr
        · right
          right
          intro c hc
          have hstep := EvD.step res res2 c hne (by omega) hev hmod hc
          have := hD _ hstep
          omega

theorem wf_mk_num_one {p : Nat} (hp : 2 ≤ p) : wfP p (mk_num p 1) := by
  rw [mk_num_one hp]
  constructor
  · intro x hx
    simp at hx
    omega
  · simp [reducedP]

theorem x_pow_mod_sub_spec {p : Nat} {tbl f sub : List Nat} (pw : Nat)
    (hp : p.Prime) (htbl : make_gf p = .ok tbl)
    (hf : wfP p f) (hfl : 2 ≤ f.length) (hf0 : f.getD 0 0 ≠ 0)
    (hsub : wfP p sub) (hsl : sub.length < f.length) :
    ∃ out, x_pow_mod_sub p tbl pw f sub = .ok out ∧ wfP p out ∧
      out.length ≤ f.length - 1 ∧
      toPoly p f ∣ (Polynomial.X : Polynomial (ZMod p)) ^ pw -
        (toPoly p out + toPoly p sub) := by
  have hp2 : 2 ≤ p := hp.two_le
  have hfne : f ≠ [] := by
    intro h
    rw [h] at hfl
    simp at hfl
  have hvalid := make_gf_valid hp2 htbl
  have hone := wf_mk_num_one (p := p) hp2
  have honene : mk_num p 1 ≠ [] := by
    rw [mk_num_one hp2]
    simp
  have hxnwf : wfP p (poly_shl (mk_num p 1) (f.length - 1)) :=
    wf_poly_shl hone honene _
  obtain ⟨r0, hr0, _, _, _⟩ := poly_mod_spec hp2 hvalid hxnwf hf hfne
  obtain ⟨out, hout, hwout, hlo, hdo⟩ :=
    x_pow_mod_sub_loop_spec hp htbl hf hfl hf0 hsub.1 hsl rfl rfl hr0 pw
      (pw + 1) pw (mk_num p 1) 0 (by omega) hone honene
      (by rw [mk_num_one hp2]; simp; omega)
      (by rw [mk_num_one hp2, toPoly_one_list, one_mul, sub_self]
          exact dvd_zero _)
      (Or.inl rfl)
  refine ⟨out, ?_, hwout, hlo, hdo⟩
  unfold x_pow_mod_sub
  rw [if_neg hfne]
  exact hout

theorem x_pow_mod_sub_naive_spec {p : Nat} {tbl f sub : List Nat} (pw : Nat)
    (hp : p.Prime) (htbl : make_gf p = .ok tbl)
    (hf : wfP p f) (hfl : 2 ≤ f.length) (hf0 : f.getD 0 0 ≠ 0)
    (hsub : wfP p sub) (hsl : sub.length < f.length) :
    ∃ out, x_pow_mod_sub_naive p tbl pw f sub = .ok out ∧ wfP p out ∧
      out.length ≤ f.length - 1 ∧
      toPoly p f ∣ (Polynomial.X : Polynomial (ZMod p)) ^ pw -
        (toPoly p out + toPoly p sub) := by
  have hp2 : 2 ≤ p := hp.two_le
  have hfne : f ≠ [] := by
    intro h
    rw [h] at hfl
    simp at hfl
  have hone := wf_mk_num_one (p := p) hp2
  have honene : mk_num p 1 ≠ [] := by
    rw [mk_num_one hp2]
    simp
  obtain ⟨out, hout, hwout, hlo, hdo⟩ :=
    x_pow_mod_sub_naive_loop_spec hp htbl hf hfl hf0 hsub.1 hsl
      (pw + 1) pw (mk_num p 1) (by omega) hone honene
      (by rw [mk_num_one hp2]; simp; omega)
  have hres : toPoly p (mk_num p 1) * Polynomial.X ^ pw
      = (Polynomial.X : Polynomial (ZMod p)) ^ pw := by
    rw [mk_num_one hp2, toPoly_one_list, one_mul]
  rw [hres] at hdo
  refine ⟨out, ?_, hwout, hlo, hdo⟩
  unfold x_pow_mod_sub_naive
  rw [if_neg hfne]
  exact hout

/-! ## Claim theorems -/

/-- C1: over a valid field GF(p), for every modulus polynomial f of degree
at least 1 with nonzero constant term, every subtrahend sub of degree less
than deg f (or zero), and every exponent pow, x_pow_mod_sub(pow, f, sub)
returns exactly ((x^pow) - sub) % f — the reference computation
`((gfpoly(\x7b1\x7d) << pow) - sub) % mod` of the code comment — and the cycle
shortcut never changes the result compared to the naive shift-and-reduce
loop. -/
theorem C1_x_pow_mod_sub_correct {p : Nat} {tbl f sub : List Nat} (pw : Nat)
    (hp : p.Prime) (htbl : make_gf p = .ok tbl)
    (hf : wfP p f) (hfl : 2 ≤ f.length) (hf0 : f.getD 0 0 ≠ 0)
    (hsub : wfP p sub) (hsl : sub.length < f.length) :
    x_pow_mod_sub p tbl pw f sub =
      poly_mod p tbl (poly_sub p (poly_shl (mk_num p 1) pw) sub) f ∧
    x_pow_mod_sub p tbl pw f sub = x_pow_mod_sub_naive p tbl pw f sub := by
  have hp2 : 2 ≤ p := hp.two_le
  have hfne : f ≠ [] := by
    intro h
    rw [h] at hfl
    simp at hfl
  have hvalid := make_gf_valid hp2 htbl
  have hone := wf_mk_num_one hp2
  have honene : mk_num p 1 ≠ [] := by
    rw [mk_num_one hp2]
    simp
  obtain ⟨out, hout, hwout, hlo, hdo⟩ :=
    x_pow_mod_sub_spec pw hp htbl hf hfl hf0 hsub hsl
  obtain ⟨out2, hout2, hwout2, hlo2, hdo2⟩ :=
    x_pow_mod_sub_naive_spec pw hp htbl hf hfl hf0 hsub hsl
  have haref : wfP p (poly_sub p (poly_shl (mk_num p 1) pw) sub) :=
    wf_poly_sub (by omega) _ _ (wf_poly_shl hone honene pw).1
  obtain ⟨rref, hrref, hwr, hlr, hdr⟩ := poly_mod_spec hp2 hvalid haref hf hfne
  have htaref : toPoly p (poly_sub p (poly_shl (mk_num p 1) pw) sub)
      = (Polynomial.X : Polynomial (ZMod p)) ^ pw - toPoly p sub := by
    rw [toPoly_poly_sub _ _ _ hsub.1, toPoly_poly_shl, mk_num_one hp2,
      toPoly_one_list, one_mul]
  rw [htaref] at hdr
  have hkey : ∀ o : List Nat,
      toPoly p f ∣ (Polynomial.X : Polynomial (ZMod p)) ^ pw -
        (toPoly p o + toPoly p sub) →
      toPoly p f ∣ toPoly p o - toPoly p rref := by
    intro o ho
    have hcomb : toPoly p o - toPoly p rref
        = ((Polynomial.X : Polynomial (ZMod p)) ^ pw - toPoly p sub -
            toPoly p rref)
          - ((Polynomial.X : Polynomial (ZMod p)) ^ pw -
            (toPoly p o + toPoly p sub)) := by ring
    rw [hcomb]
    exact dvd_sub hdr ho
  have hout_eq : out = rref :=
    toPoly_mod_unique hp hf hwout hwr (by omega) hlr (hkey out hdo)
  have hout2_eq : out2 = rref :=
    toPoly_mod_unique hp hf hwout2 hwr (by omega) hlr (hkey out2 hdo2)
  constructor
  · rw [hout, hrref, hout_eq]
  · rw [hout, hout2, hout_eq, hout2_eq]

/-- Witness for C1 at a concrete input: over GF(2) with f = x² + x + 1 and
sub = x, both computed forms agree with the reference remainder. -/
theorem C1_x_pow_mod_sub_correct_witness :
    x_pow_mod_sub 2 [0, 1] 5 [1, 1, 1] [0, 1] =
      poly_mod 2 [0, 1] (poly_sub 2 (poly_shl (mk_num 2 1) 5) [0, 1]) [1, 1, 1] ∧
    x_pow_mod_sub 2 [0, 1] 5 [1, 1, 1] [0, 1] =
      x_pow_mod_sub_naive 2 [0, 1] 5 [1, 1, 1] [0, 1] :=
  C1_x_pow_mod_sub_correct 5 (by norm_num) (by rfl) (by decide) (by decide)
    (by decide) (by decide) (by decide)

/-- C3: for every pair of polynomials a, b over the same (valid) field with
b nonzero, the division pair computed by gfpoly::quotient_remainder
satisfies (a / b) * b + (a % b) = a, the product and sum being computed by
the embedded gfpoly multiplication and addition; and whenever
size(a) < size(b), the quotient is the zero polynomial and the remainder
is a. -/
theorem C3_division_algorithm {p : Nat} {tbl : List Nat} {a b : List Nat}
    (htbl : make_gf p = .ok tbl) (ha : wfP p a) (hb : wfP p b) (hbne : b ≠ []) :
    (∃ q r, poly_quot p tbl a b = .ok q ∧ poly_mod p tbl a b = .ok r ∧
      poly_add p (poly_mul p q b) r = a) ∧
    (a.length < b.length →
      poly_quot p tbl a b = .ok [] ∧ poly_mod p tbl a b = .ok a) := by
  have hp : 2 ≤ p := by
    have := wf_leading hb hbne
    omega
  have hvalid := make_gf_valid hp htbl
  constructor
  · obtain ⟨qr, hqr, hwq, hwr, hlen, hpoly⟩ :=
      quotient_remainder_spec hp hvalid ha hb hbne
    refine ⟨qr.1, qr.2, by rw [poly_quot, hqr]; rfl, by rw [poly_mod, hqr]; rfl, ?_⟩
    have hmem : ∀ x ∈ poly_mul p qr.1 b, x < p := (wf_poly_mul (by omega) _ _).1
    apply toPoly_inj (wf_poly_add (by omega) _ _ hmem) ha
    rw [toPoly_poly_add, toPoly_poly_mul, hpoly]
  · intro hlen
    have hsmall : quotient_remainder p tbl a b = .ok ([], a) := by
      unfold quotient_remainder
      rw [if_neg hbne, if_pos hlen]
    rw [poly_quot, poly_mod, hsmall]
    exact ⟨rfl, rfl⟩

/-- Witness for C3 at a concrete input: over GF(2) with a = x² + x + 1 and
b = x, the computed quotient and remainder recombine to a. -/
theorem C3_division_algorithm_witness :
    ∃ q r, poly_quot 2 [0, 1] [1, 1, 1] [0, 1] = .ok q ∧
      poly_mod 2 [0, 1] [1, 1, 1] [0, 1] = .ok r ∧
      poly_add 2 (poly_mul 2 q [0, 1]) r = [1, 1, 1] :=
  (C3_division_algorithm (p := 2) (by rfl) (by decide) (by decide) (by decide)).1

/-- C6 (code bug): gfpoly operator<<= applied to the zero polynomial
produces the coefficient vector [0], which is nonempty with zero leading
coefficient — it violates the reduced-form invariant the class documents
and every other operation maintains. -/
theorem C6_shl_breaks_invariant :
    poly_shl [] 1 = [0] ∧ ¬ reducedP [0] ∧ ([0] : List Nat) ≠ [] := by
  refine ⟨rfl, ?_, by decide⟩
  unfold reducedP
  decide

/-- Counterexample to C7 as stated: for the zero polynomial a and n = 1,
(a << 1) >> 1 raises instead of returning a (the shifted zero polynomial
is the unreduced vector [0], whose degree 0 is smaller than 1). -/
theorem C7_roundtrip_counterexample :
    poly_shr (poly_shl [] 1) 1 = .error .notDivisible := by
  rfl

/-- C7 (amended): for every nonzero reduced polynomial a and every n, the
shift roundtrip holds: (a << n) >> n = a; a left shift is always
permitted.  (For the zero polynomial the roundtrip instead raises.) -/
theorem C7_shift_roundtrip {p : Nat} {a : List Nat} (ha : wfP p a)
    (hne : a ≠ []) (n : Nat) : poly_shr (poly_shl a n) n = .ok a :=
  poly_shr_poly_shl ha hne n

/-- Witness for C7 at a concrete input: ([1] << 2) >> 2 = [1] over GF(2). -/
theorem C7_shift_roundtrip_witness : poly_shr (poly_shl [1] 2) 2 = .ok [1] :=
  C7_shift_roundtrip (p := 2) (by decide) (by decide) 2

/-- C8: polynomial division and remainder fail exactly when the divisor is
the zero polynomial (the CHECK_FIELD guard); for every nonzero divisor
they return normally, whatever the dividend. -/
theorem C8_division_error {p : Nat} {tbl : List Nat} :
    (∀ a : List Nat, quotient_remainder p tbl a [] = .error .checkFailed) ∧
    (∀ a b : List Nat, wfP p b → b ≠ [] →
      ∃ qr, quotient_remainder p tbl a b = .ok qr) := by
  constructor
  · intro a
    unfold quotient_remainder
    rw [if_pos rfl]
  · intro a b hb hbne
    have hlead := wf_leading hb hbne
    unfold quotient_remainder
    rw [if_neg hbne]
    by_cases hlen : a.length < b.length
    · rw [if_pos hlen]
      exact ⟨_, rfl⟩
    · rw [if_neg hlen]
      unfold division
      rw [if_pos ⟨by omega, hbne, by
        intro h
        subst h
        simp only [List.length_nil, Nat.not_lt, Nat.le_zero,
          List.length_eq_zero] at hlen
        exact hbne hlen⟩]
      obtain ⟨out, hout⟩ := division_loop_ok hlead.1 hlead.2
        (a.length - 1 - (b.length - 1))
        (List.replicate (a.length - 1 - (b.length - 1) + 1) 0) a
      rw [hout]
      exact ⟨_, rfl⟩

/-- Witness for C8 at concrete inputs over GF(2). -/
theorem C8_division_error_witness :
    quotient_remainder 2 [0, 1] [1] [] = .error .checkFailed ∧
    ∃ qr, quotient_remainder 2 [0, 1] [1] [1, 1] = .ok qr :=
  ⟨(@C8_division_error 2 [0, 1]).1 [1],
    (@C8_division_error 2 [0, 1]).2 [1] [1, 1] (by decide) (by decide)⟩

theorem integer_power_loop_spec {t : Nat} (ht : t < W) :
    ∀ fuel n, n < fuel → integer_power_loop t fuel n = t ^ n % W := by
  intro fuel
  induction fuel with
  | zero => intro n h; omega
  | succ fuel ih =>
    intro n hn
    match n with
    | 0 =>
      show 1 = t ^ 0 % W
      rw [pow_zero, Nat.mod_eq_of_lt (by unfold W; omega)]
    | 1 =>
      show t = t ^ 1 % W
      rw [pow_one, Nat.mod_eq_of_lt ht]
    | 2 =>
      show wmul t t = t ^ 2 % W
      rw [wmul, pow_two]
    | 3 =>
      show wmul (wmul t t) t = t ^ 3 % W
      rw [wmul, wmul, Nat.mod_mul_mod, show t * t * t = t ^ 3 from by ring]
    | (m + 4) =>
      show (let r := integer_power_loop t fuel ((m + 4) / 2);
            let r2 := wmul r r;
            if (m + 4) % 2 = 1 then wmul r2 t else r2) = t ^ (m + 4) % W
      have ihr : integer_power_loop t fuel ((m + 4) / 2) = t ^ ((m + 4) / 2) % W :=
        ih ((m + 4) / 2) (by omega)
      simp only [wmul, ihr]
      by_cases hodd : (m + 4) % 2 = 1
      · rw [if_pos hodd, ← Nat.mul_mod, Nat.mod_mul_mod, ← pow_add, ← pow_succ,
          show (m + 4) / 2 + (m + 4) / 2 + 1 = m + 4 from by omega]
      · rw [if_neg hodd, ← Nat.mul_mod, ← pow_add,
          show (m + 4) / 2 + (m + 4) / 2 = m + 4 from by omega]

/-- C10: detail::integer_power works on fixed-width machine words: for
every base below the word bound it returns the power reduced modulo 2^64,
so p^n overflows silently — integer_power 2 64 wraps to 0 exactly as
2^64 mod 2^64 does — and the exponents fed to x_pow_mod_sub by the Rabin
and primitivity tests are only the true p^(n_i), p^n when those fit in a
word. -/
theorem C10_integer_power_mod_word :
    (∀ t n : Nat, t < W → integer_power t n = t ^ n % W) ∧
    integer_power 2 64 = 0 ∧ (2 : Nat) ^ 64 % W = 0 := by
  refine ⟨fun t n ht => integer_power_loop_spec ht (n + 1) n (by omega), ?_, by decide⟩
  rfl

/-- Witness for C10 at a concrete input: integer_power 3 5 = 3^5 mod 2^64. -/
theorem C10_integer_power_mod_word_witness :
    integer_power 3 5 = 3 ^ 5 % W :=
  C10_integer_power_mod_word.1 3 5 (by decide)

/-- Counterexample to C5 as stated: make_field(1) does not fail — the
constructor accepts p = 1 (the assert only requires base > 0) and returns
the degenerate one-entry inverse table. -/
theorem C5_make_field_counterexample : make_gf 1 = .ok [0] := rfl

/-- C5 (amended): make_field(p) in this implementation fails for p = 0
(the assert) and for composite p ≥ 2 (the first element of [1, p) sharing
a factor with p has no inverse and inv_calc throws); it succeeds exactly
on the primes for p ≥ 2, and — contrary to the claim — also on p = 1; no
overflow check exists.  In particular make_field(4) fails while
make_field(2), (3), (5), (7), (11) succeed. -/
theorem C5_make_field_domain :
    make_gf 0 = .error .checkFailed ∧
    make_gf 1 = .ok [0] ∧
    (∀ p, 2 ≤ p → ((∃ tbl, make_gf p = .ok tbl) ↔ p.Prime)) ∧
    make_gf 4 = .error .noInverse ∧
    (∃ t, make_gf 2 = .ok t) ∧ (∃ t, make_gf 3 = .ok t) ∧
    (∃ t, make_gf 5 = .ok t) ∧ (∃ t, make_gf 7 = .ok t) ∧
    (∃ t, make_gf 11 = .ok t) := by
  refine ⟨rfl, rfl, fun p hp => make_gf_ok_iff p hp, rfl,
    ⟨_, rfl⟩, ⟨_, rfl⟩, ⟨_, rfl⟩, ⟨_, rfl⟩, ⟨_, rfl⟩⟩

/-- Witness for C5 at a concrete prime: the success criterion evaluated at
p = 13. -/
theorem C5_make_field_domain_witness :
    (∃ tbl, make_gf 13 = .ok tbl) ↔ Nat.Prime 13 :=
  C5_make_field_domain.2.2.1 13 (by decide)

/-- C4: the edge cases of is_primitive_definition: the zero polynomial,
every constant, and every polynomial of degree above 1 with zero constant
term are rejected; every degree-1 polynomial with zero constant term is
accepted; and over GF(2) the hand-coded case x + 1 is rejected. -/
theorem C4_is_primitive_edge_cases :
    (∀ p tbl, is_primitive_definition p tbl [] = .ok false) ∧
    (∀ p tbl c, is_primitive_definition p tbl [c] = .ok false) ∧
    (∀ p tbl (v : List Nat), 3 ≤ v.length → v.getD 0 0 = 0 →
      is_primitive_definition p tbl v = .ok false) ∧
    (∀ p tbl c, is_primitive_definition p tbl [0, c] = .ok true) ∧
    is_primitive_definition 2 [0, 1] [1, 1] = .ok false := by
  refine ⟨fun p tbl => by simp [is_primitive_definition], ?_, ?_, ?_, by rfl⟩
  · intro p tbl c
    simp only [is_primitive_definition]
    rw [if_neg (by simp), if_pos (Or.inl (by simp))]
  · intro p tbl v h3 h0
    simp only [is_primitive_definition]
    rw [if_neg (by intro h; subst h; simp at h3),
      if_pos (Or.inr ⟨h0, by omega⟩)]
  · intro p tbl c
    simp [is_primitive_definition]

/-- Witness for C4 at a concrete input: x over GF(3) is reported
primitive. -/
theorem C4_is_primitive_edge_cases_witness :
    is_primitive_definition 3 [0, 1, 2] [0, 2] = .ok true :=
  C4_is_primitive_edge_cases.2.2.2.1 3 [0, 1, 2] 2

theorem pipe_seq_spec {α β : Type} (ins : Nat → α) (pl : α → Option β)
    (bk : α → β → Bool) (res : Nat → β) (k : Nat)
    (hpl : ∀ i, pl (ins i) = some (res i))
    (hk : bk (ins k) (res k) = true)
    (hmin : ∀ j, j < k → bk (ins j) (res j) = false) :
    ∀ fuel i, i ≤ k → k - i < fuel →
      pipe_seq ins pl bk fuel i =
        .ok ((List.range' i (k + 1 - i)).bind fun j => [.inp j, .chk j, .cb j]) := by
  intro fuel
  induction fuel with
  | zero => intro i h1 h2; omega
  | succ fuel ih =>
    intro i hik hfuel
    simp only [pipe_seq, hpl i]
    by_cases hstop : i = k
    · subst hstop
      rw [hk]
      have h1 : i + 1 - i = 1 := by omega
      simp [h1]
    · have hlt : i < k := by omega
      rw [hmin i hlt]
      rw [ih (i + 1) (by omega) (by omega)]
      have h1 : k + 1 - i = (k - i - 1) + 1 + 1 := by omega
      have h2 : k + 1 - (i + 1) = (k - i - 1) + 1 := by omega
      rw [h1, h2]
      simp [List.range'_succ]

/-- C9: when the configured worker count is 0 or 1 the pipeline spawns no
worker pods, and the coordinator loop calls input, check, callback in that
order for each candidate in sequence, returning when the callback first
answers true — exactly k + 1 inputs are drawn when the callback accepts
the k-th candidate, and none after. -/
theorem C9_pipeline_degenerate :
    (∀ n, n ≤ 1 → pipeline_workers n = 0) ∧
    (∀ {α β : Type} (ins : Nat → α) (pl : α → Option β) (bk : α → β → Bool)
      (res : Nat → β) (k fuel : Nat),
      (∀ i, pl (ins i) = some (res i)) →
      bk (ins k) (res k) = true →
      (∀ j, j < k → bk (ins j) (res j) = false) →
      k < fuel →
      pipe_seq ins pl bk fuel 0 =
        .ok ((List.range (k + 1)).bind fun j => [.inp j, .chk j, .cb j])) := by
  constructor
  · intro n hn
    unfold pipeline_workers
    rw [if_neg (by omega)]
  · intro α β ins pl bk res k fuel h1 h2 h3 h4
    rw [pipe_seq_spec ins pl bk res k h1 h2 h3 fuel 0 (by omega) (by omega),
      List.range_eq_range']
    rfl

/-- Witness for C9 at concrete streams: the callback accepts candidate 1,
so exactly candidates 0 and 1 are drawn, each with input–check–callback in
order. -/
theorem C9_pipeline_degenerate_witness :
    pipeline_workers 1 = 0 ∧
    pipe_seq (fun i => i) (fun v => some v) (fun v _ => decide (v = 1)) 5 0 =
      .ok [.inp 0, .chk 0, .cb 0, .inp 1, .chk 1, .cb 1] := by
  refine ⟨C9_pipeline_degenerate.1 1 (by decide), ?_⟩
  have h := C9_pipeline_degenerate.2 (fun i => i) (fun v => some v)
    (fun v _ => decide (v = 1)) (fun i => i) 1 5 (fun i => rfl) (by decide)
    (fun j hj => by
      have hj0 : j = 0 := by omega
      subst hj0
      rfl) (by decide)
  rw [h]
  rfl

end Irrpoly
